import Mathlib

/-!
# Verification of the commitizen custom-commits link-augmentation pipeline

Shallow embedding of `src/commitizen_cz_custom_commits/cz_custom_commits.py`:
the `GitHubRepo` URL builders, the per-commit message augmenter
(`changelog_message_builder_hook`) and the whole-document augmenter
(`changelog_hook`).  Text is modelled as `List Char`; each Python regex
operation is hand-compiled to an equivalent scanner over character lists,
with the compilation argument recorded in the definition's doc comment.
-/

set_option maxRecDepth 100000

namespace CzCustomCommits

/-- Text is modelled as a list of characters. -/
abbrev Str := List Char

/-- Coerce a string literal into the `List Char` model. -/
def str (s : String) : Str := s.toList

/-! ## GitHubRepo (dataclass `GitHubRepo`) -/

/-- Embedding of the `GitHubRepo` dataclass: `owner` and `name`. -/
structure GitHubRepo where
  owner : Str
  name : Str
deriving DecidableEq

/-- `url` property: `https://github.com/{owner}/{name}`. -/
def GitHubRepo.url (r : GitHubRepo) : Str :=
  str "https://github.com/" ++ r.owner ++ str "/" ++ r.name

/-- `get_commit_url`: `{url}/commit/{commit_id}`. -/
def GitHubRepo.get_commit_url (r : GitHubRepo) (commit_id : Str) : Str :=
  r.url ++ str "/commit/" ++ commit_id

/-- `get_tag_url`: `{url}/releases/tag/{tag}`. -/
def GitHubRepo.get_tag_url (r : GitHubRepo) (tag : Str) : Str :=
  r.url ++ str "/releases/tag/" ++ tag

/-- `get_diff_url`: `{url}/compare/{tag1}...{tag2}`. -/
def GitHubRepo.get_diff_url (r : GitHubRepo) (tag1 tag2 : Str) : Str :=
  r.url ++ str "/compare/" ++ tag1 ++ str "..." ++ tag2

/-- `get_issue_url`: `{url}/issues/{issue_id_without_sharp}`. -/
def GitHubRepo.get_issue_url (r : GitHubRepo) (issue_id_without_sharp : Str) : Str :=
  r.url ++ str "/issues/" ++ issue_id_without_sharp

/-! ## Commit data and the augmenter state -/

/-- The fields of `commitizen.git.GitCommit` the hook reads: `rev` and `body`. -/
structure GitCommit where
  rev : Str
  body : Str
deriving DecidableEq

/-- One entry of `self.breaking_change_dicts`: a dict with the two keys
`breaking_change_message` and `commit_id`. -/
structure BreakingChangeDict where
  breaking_change_message : Str
  commit_id : Str
deriving DecidableEq

/-- The mutable state of a `CustomCommitsCz` instance that the two hooks
touch: `self.github_repo` and `self.breaking_change_dicts`. -/
structure CzState where
  github_repo : GitHubRepo
  breaking_change_dicts : List BreakingChangeDict
deriving DecidableEq

/-- The two configuration settings `__init__` reads from
`config.settings.get(...)`; `none` models an absent key (Python `None`). -/
structure BaseConfigSettings where
  github_repo_owner : Option Str
  github_repo_name : Option Str
deriving DecidableEq

/-- Embedding of `CustomCommitsCz.__init__`: `raise Exception(...)` becomes
`Except.error` carrying the raised message; on success the state holds the
`GitHubRepo` and the empty `breaking_change_dicts` list.  The call to the
external `super().__init__(config)` is outside the embedded core. -/
def CustomCommitsCz.init (config : BaseConfigSettings) : Except String CzState :=
  match config.github_repo_owner with
  | none => Except.error "設定ファイルに`github_repo_owner`を設定してください。"
  | some github_repo_owner =>
    match config.github_repo_name with
    | none => Except.error "設定ファイルに`github_repo_name`を設定してください。"
    | some github_repo_name =>
      Except.ok
        { github_repo := { owner := github_repo_owner, name := github_repo_name }
          breaking_change_dicts := [] }

/-! ## Issue-reference scanning and substitution

`re.compile(r"(#\d+)").findall(message)` scans left to right for
non-overlapping matches of `#` followed by a maximal nonempty digit run,
resuming after each match.  `findIssueRefs` is that scanner. -/

/-- `true` when the first character exists and is a digit (the `\d` test the
regex applies to the character after `#`). -/
def headIsDigit : Str → Bool
  | [] => false
  | c :: _ => c.isDigit

/-- Hand-compilation of `re.compile(r"(#\d+)").findall`: leftmost
non-overlapping matches of `#` followed by one or more digits (greedy),
scanning resumes after the matched digits.  The first argument is `true`
while the scanner is still inside the digit run of the match it just
emitted (those characters are consumed by the match and are not
re-examined, making the matches non-overlapping). -/
def issueScan : Bool → Str → List Str
  | _, [] => []
  | inDigits, c :: rest =>
    if inDigits ∧ c.isDigit then
      issueScan true rest
    else if c = '#' ∧ headIsDigit rest then
      ('#' :: rest.takeWhile Char.isDigit) :: issueScan true rest
    else
      issueScan false rest

/-- `re.compile(r"(#\d+)").findall(message)`: start the scan outside any
match. -/
def findIssueRefs (s : Str) : List Str := issueScan false s

/-- Hand-compilation of `re.compile(pat).sub(repl, s)` for a pattern that is
a regex-literal string (the patterns substituted here are `#` followed by
digits, which contain no regex metacharacters): every leftmost
non-overlapping occurrence of `pat` is replaced by `repl`.  The `Nat`
argument counts characters of the current match still to be consumed
(skipped without re-examination).  The `pat ≠ []` guard is vacuous in all
uses (patterns always start with `#`). -/
def replaceAllAux (pat repl : Str) : Nat → Str → Str
  | _, [] => []
  | skip + 1, _ :: rest => replaceAllAux pat repl skip rest
  | 0, c :: rest =>
    if pat.isPrefixOf (c :: rest) ∧ pat ≠ [] then
      repl ++ replaceAllAux pat repl (pat.length - 1) rest
    else
      c :: replaceAllAux pat repl 0 rest

/-- `re.compile(pat).sub(repl, s)` for a regex-literal `pat`. -/
def replaceAll (pat repl : Str) (s : Str) : Str := replaceAllAux pat repl 0 s

/-- The replacement text `f"[{issue_id}]({repo_issue_url})"` where
`repo_issue_url = get_issue_url(issue_id[1:])`. -/
def issueLink (repo : GitHubRepo) (issue_id : Str) : Str :=
  '[' :: issue_id ++ str "](" ++ repo.get_issue_url (issue_id.drop 1) ++ str ")"

/-- The issue-linking loop of `changelog_message_builder_hook` (lines
140-145): fold the chained `re.sub` calls over the found issue ids. -/
def linkIssues (repo : GitHubRepo) (message : Str) : Str :=
  (findIssueRefs message).foldl
    (fun m issue_id => replaceAll issue_id (issueLink repo issue_id) m) message

/-! ## Breaking-change scanning -/

/-- The literal marker `breaking_change_word = "BREAKING CHANGE: "`. -/
def breaking_change_word : Str := str "BREAKING CHANGE: "

/-- Hand-compilation of
`re.findall(rf"{breaking_change_word}.*", commit.body, re.MULTILINE)`:
the pattern is the literal marker followed by a greedy run of
non-newline characters, so a match starts at an occurrence of the marker
and extends to the end of that line; scanning resumes after the match,
hence at most one match per line (at the first marker occurrence).
When the marker is a prefix of `c :: rest`, `c = 'B' ≠ '\n'`, so the
emitted match `c :: rest.takeWhile (· ≠ '\n')` is exactly
`takeWhile (· ≠ '\n')` of the whole remaining text.  The `Bool` argument
is `true` while the scanner is still inside the line-tail consumed by the
match it just emitted (scanning resumes only after the match, i.e. at the
next newline). -/
def bcScan : Bool → Str → List Str
  | _, [] => []
  | inMatch, c :: rest =>
    if inMatch ∧ c ≠ '\n' then
      bcScan true rest
    else if breaking_change_word.isPrefixOf (c :: rest) then
      (c :: rest.takeWhile (fun ch => ch ≠ '\n')) :: bcScan true rest
    else
      bcScan false rest

/-- `re.findall(rf"{breaking_change_word}.*", body, re.MULTILINE)`. -/
def findBreakingChangeMessages (s : Str) : List Str := bcScan false s

/-- Line-level characterization of one `findall` match: on a single
(newline-free) line, the match runs from the first occurrence of the
marker to the end of the line, or there is none.  `findBreakingChangeMessages`
is proved equal to `filterMap lineBCMatch` over the body's lines. -/
def lineBCMatch : Str → Option Str
  | [] => none
  | c :: rest =>
    if breaking_change_word.isPrefixOf (c :: rest) then some (c :: rest)
    else lineBCMatch rest

/-! ## The parsed-message mapping -/

/-- `parsed_message` is a Python dict; modelled as an association list with
unique keys, read with `List.lookup` and written with `dictSet`. -/
abbrev ParsedMessage := List (String × Str)

/-- Python dict assignment `d[k] = v`: replace the binding of `k` (keys are
unique in a dict), or add it if absent. -/
def dictSet (k : String) (v : Str) : ParsedMessage → ParsedMessage
  | [] => [(k, v)]
  | (k', v') :: rest => if k' = k then (k, v) :: rest else (k', v') :: dictSet k v rest

/-! ## changelog_message_builder_hook -/

/-- Embedding of `changelog_message_builder_hook` (lines 120-169).  Reading
`parsed_message["message"]` raises `KeyError` when the key is absent, which
the embedding models as `none`.  The hook links issue references, appends
the commit link, writes the new message back under `"message"`, and appends
one `BreakingChangeDict` per `BREAKING CHANGE: ` match found in the body. -/
def changelog_message_builder_hook (st : CzState) (parsed_message : ParsedMessage)
    (commit : GitCommit) : Option (ParsedMessage × CzState) :=
  match List.lookup "message" parsed_message with
  | none => none
  | some message =>
    let message1 := linkIssues st.github_repo message
    let long_commit_id := commit.rev
    let short_commit_id := long_commit_id.take 7
    let repo_commit_url := st.github_repo.get_commit_url long_commit_id
    let message2 := message1 ++ str " ([" ++ short_commit_id ++ str "](" ++
      repo_commit_url ++ str "))"
    let parsed2 := dictSet "message" message2 parsed_message
    let newDicts := (findBreakingChangeMessages commit.body).map
      (fun m =>
        { breaking_change_message := m.drop breaking_change_word.length
          commit_id := commit.rev })
    some (parsed2, { st with breaking_change_dicts := st.breaking_change_dicts ++ newDicts })

/-! ## Line structure

The document-side regex operations of `changelog_hook` all use patterns
anchored at `^` or `$` under `re.MULTILINE`, and `.` never matches a
newline, so every match lies within a single line.  They are therefore
compiled line by line: split the document at `'\n'` (as Python's
`str.split("\n")` would), transform each line, and rejoin. -/

/-- Split at newline characters; `linesOf s` always has one more entry than
`s` has newlines (so `linesOf [] = [[]]`). -/
def linesOf : Str → List Str
  | [] => [[]]
  | c :: rest =>
    if c = '\n' then [] :: linesOf rest
    else
      match linesOf rest with
      | [] => [[c]]
      | l :: ls => (c :: l) :: ls

/-- Rejoin lines with newline characters (inverse of `linesOf`). -/
def joinLines : List Str → Str
  | [] => []
  | [l] => l
  | l :: l2 :: ls => l ++ '\n' :: joinLines (l2 :: ls)

/-! ## Tag-heading extraction

`tag_pattern = r"^#{1,2} (v\d?.\d?.\d?.*) \(.*\)"` under `re.MULTILINE`.
A match must start at a line start: one or two `#` (greedily two, so a line
starting `## ` uses two and a line starting `# ` uses one), a space, then
the group `v\d?.\d?.\d?.*` followed by ` \(.*\)`.  Since `\d?` is optional
and `.` matches any non-newline character, the group can denote any prefix
of the rest of the line that starts with `v` and has length at least 3;
backtracking from the greedy `.*` selects the largest end position `p`
such that the characters at `p` and `p + 1` are `" ("` and some `")"`
occurs at position `p + 2` or later in the line.  `findMaxPAux` computes
that largest `p` by downward search. -/

/-- Feasibility of group-end position `p` within the post-marker text `r`:
`p ≥ 3` (the group `v\d?.\d?.\d?` consumes at least 3 characters), `r`
has `" ("` at positions `p, p+1`, and a `")"` at some position `≥ p + 2`. -/
def tagEndFeasible (r : Str) (p : Nat) : Bool :=
  decide (3 ≤ p) && decide (r[p]? = some ' ') && decide (r[p + 1]? = some '(') &&
    (r.drop (p + 2)).contains ')'

/-- Largest feasible group-end position `≤ n`, if any. -/
def findMaxPAux (r : Str) : Nat → Option Nat
  | 0 => none
  | p + 1 => if tagEndFeasible r (p + 1) then some (p + 1) else findMaxPAux r p

/-- The captured group of `tag_pattern` on the text after the heading
marker and space: requires a leading `v`, and takes the prefix up to the
largest feasible end position. -/
def tagOfRest (r : Str) : Option Str :=
  match r with
  | 'v' :: _ =>
    match findMaxPAux r r.length with
    | some p => some (r.take p)
    | none => none
  | _ => none

/-- The tag captured from one line by `tag_pattern`, if the line matches:
`#{1,2}` greedily takes two `#` when followed by a space, else one. -/
def lineTag (l : Str) : Option Str :=
  match l with
  | '#' :: '#' :: ' ' :: r => tagOfRest r
  | '#' :: ' ' :: r => tagOfRest r
  | _ => none

/-- `re.findall(tag_pattern, full_changelog, re.MULTILINE)` (line 212):
since the pattern is `^`-anchored there is at most one match per line, in
line order. -/
def findTags (full_changelog : Str) : List Str :=
  (linesOf full_changelog).filterMap lineTag

/-! ## Tag substitution

`search_pattern_of_newer_tag = rf"(^#{{1,2}}) ({tag})"` interpolates the
captured tag text into the regex UNESCAPED, and likewise the breaking-change
substitution interpolates the recorded text into `rf"{text}$"`.  The
embedding interprets such a pattern exactly on the class `patternModelled`:
every character is either `.` (which matches any single non-newline
character) or a regex non-metacharacter (which matches itself);
`dotMatch` is Python's matching relation for exactly that class.  An
interpolated pattern OUTSIDE the class either fails to compile
(`re.error`, e.g. an unbalanced `(`) or carries regex constructs
(quantifiers, classes, alternation, escapes) that this embedding does not
interpret; `changelog_hookChecked` below rejects such inputs instead of
giving them unfaithful semantics.  The replacement template
`rf"\1 [\2]({repo_diff_url})"` rebuilds the heading marker (`\1`), a
space, and the matched text (`\2`) wrapped as a markdown link; a
backslash inside the interpolated URL would change the template's
meaning (or raise), which the checked hook also guards. -/

/-- The characters `re` treats as metacharacters; every other character
matches itself literally in a pattern. -/
def regexMetaChar (c : Char) : Bool :=
  c = '\\' || c = '^' || c = '$' || c = '.' || c = '|' || c = '?' || c = '*' ||
    c = '+' || c = '(' || c = ')' || c = '[' || c = ']' || c = '{' || c = '}'

/-- Interpolated patterns the embedding interprets exactly: every
character either matches itself literally or is `.`. -/
def patternModelled (p : Str) : Bool :=
  p.all (fun c => !regexMetaChar c || c == '.')

/-- Regex matching of an interpolated pattern from the `patternModelled`
class against a same-length piece of text: `.` matches any character,
every other character of the class matches itself.  On patterns outside
the class this function does NOT agree with `re` (see `patternModelled`);
the theorems only apply it inside the class. -/
def dotMatch : Str → Str → Bool
  | [], [] => true
  | [], _ :: _ => false
  | _ :: _, [] => false
  | p :: ps, c :: cs => (p == '.' || p == c) && dotMatch ps cs

/-- One line under `re.sub(rf"(^#{{1,2}}) ({tag})", repl, ...)`, for a
tag in the `patternModelled` class: if the line starts with one or two
`#` (greedily two), a space, and a `dotMatch` of `tag`, the matched part
is replaced by `repl hashes matchedText` and the rest of the line is
kept.  For a tag outside the class this total function diverges from the
program (which gives the pattern further regex meaning or raises);
`changelog_hookChecked` confines its use to the class. -/
def subTagLine (tag : Str) (repl : Str → Str → Str) (l : Str) : Str :=
  match l with
  | '#' :: '#' :: ' ' :: r =>
    if dotMatch tag (r.take tag.length) then
      repl (str "##") (r.take tag.length) ++ r.drop tag.length
    else l
  | '#' :: ' ' :: r =>
    if dotMatch tag (r.take tag.length) then
      repl (str "#") (r.take tag.length) ++ r.drop tag.length
    else l
  | _ => l

/-- `re.sub(search_pattern_of_newer_tag, replacement, full_changelog,
flags=re.MULTILINE)` for a tag in the `patternModelled` class: the
pattern is `^`-anchored, so substitution acts line by line (see
`subTagLine` for the domain caveat). -/
def subTag (tag : Str) (repl : Str → Str → Str) (doc : Str) : Str :=
  joinLines ((linesOf doc).map (subTagLine tag repl))

/-- Replacement `rf"\1 [\2]({repo_diff_url})"` with
`repo_diff_url = get_diff_url(older_tag, newer_tag)`. -/
def replacementLinked (repo : GitHubRepo) (older_tag newer_tag : Str)
    (hashes matched : Str) : Str :=
  hashes ++ str " [" ++ matched ++ str "](" ++ repo.get_diff_url older_tag newer_tag ++ str ")"

/-- Replacement `rf"\1 \2"` used for the oldest tag (the `IndexError`
branch). -/
def replacementPlain (hashes matched : Str) : Str :=
  hashes ++ ' ' :: matched

/-- The tag loop of `changelog_hook` (lines 213-228): for each index, link
to the diff against the next (older) tag, or rebuild the match unchanged
when there is no older tag. -/
def tagLinkLoop (repo : GitHubRepo) (tags : List Str) (doc : Str) : Str :=
  (List.range tags.length).foldl
    (fun d tag_index =>
      let tag := tags.getD tag_index []
      match tags[tag_index + 1]? with
      | some older_tag => subTag tag (replacementLinked repo older_tag tag) d
      | none => subTag tag replacementPlain d)
    doc

/-! ## Breaking-change substitution

`re.sub(rf"{breaking_change_message}$", breaking_change_message_with_link,
full_changelog, flags=re.MULTILINE)`: the interpolated message is matched
as a regex (`dotMatch` for the safe alphabet) anchored at end of line, and
the whole replacement string (the message followed by the commit link) is
inserted literally. -/

/-- `f"{breaking_change_message} ([{short_commit_id}]({repo_commit_url}))"`
where `short_commit_id = long_commit_id[:7]`. -/
def bcMessageWithLink (repo : GitHubRepo) (bc : BreakingChangeDict) : Str :=
  bc.breaking_change_message ++ str " ([" ++ bc.commit_id.take 7 ++ str "](" ++
    repo.get_commit_url bc.commit_id ++ str "))"

/-- One line under the end-anchored substitution, for a recorded text in
the `patternModelled` class: when the message `dotMatch`es the final
`text.length` characters of the line, that suffix is replaced by the
full replacement string.  (Outside the class the interpolated pattern
has further regex meaning or raises; see `changelog_hookChecked`.) -/
def subBreakingLine (text withLink : Str) (l : Str) : Str :=
  if dotMatch text (l.drop (l.length - text.length)) then
    l.take (l.length - text.length) ++ withLink
  else l

/-- The substitution for one accumulated breaking-change dict, applied to
every line. -/
def subBreaking (repo : GitHubRepo) (bc : BreakingChangeDict) (doc : Str) : Str :=
  joinLines ((linesOf doc).map
    (subBreakingLine bc.breaking_change_message (bcMessageWithLink repo bc)))

/-- Embedding of `changelog_hook` (lines 171-246): add diff links to tag
headings, then add commit links after each accumulated breaking-change
message.  The second Python parameter (the optional second changelog
string) is never read by the body; it is kept as an argument to state
that fact. -/
def changelog_hook (st : CzState) (full_changelog : Str) (_pcl : Option Str) : Str :=
  let tags := findTags full_changelog
  let afterTags := tagLinkLoop st.github_repo tags full_changelog
  st.breaking_change_dicts.foldl
    (fun d bc => subBreaking st.github_repo bc d) afterTags

/-- The tag loop's regex side conditions: every captured tag must lie in
the modelled `patternModelled` class (a tag outside it makes the
interpolated search pattern invalid or un-modelled), and when a diff link
is actually built (two or more tags, so the `try` branch is taken and
`repo_diff_url` is interpolated into the replacement template) the
repository owner and name may not contain a backslash (which `re.sub`
would read as a template escape, raising on a bad one). -/
def tagLoopOk (repo : GitHubRepo) (tags : List Str) : Bool :=
  tags.all patternModelled &&
    (decide (tags.length ≤ 1) ||
      (!repo.owner.contains '\\' && !repo.name.contains '\\'))

/-- The breaking-change loop's regex side conditions: each recorded text
is interpolated unescaped into the end-anchored pattern (so it must lie
in the modelled class), and each replacement template embeds the commit
URL, so the revision, owner and name may not contain a backslash. -/
def bcLoopOk (repo : GitHubRepo) (dicts : List BreakingChangeDict) : Bool :=
  dicts.all (fun bc => patternModelled bc.breaking_change_message &&
    !bc.commit_id.contains '\\') &&
  (dicts.isEmpty || (!repo.owner.contains '\\' && !repo.name.contains '\\'))

/-- `changelog_hook` with the regex side conditions made explicit.  The
source interpolates each captured tag and each recorded breaking-change
text into a pattern unescaped and interpolates repository data into the
replacement templates, so `re.compile`/`re.sub` can raise `re.error` at
runtime.  This checked embedding returns `Except.ok` with the total
model's result exactly when every interpolated pattern lies in the
modelled literal-or-dot class and no replacement template contains a
backslash — on that domain the Python calls complete normally and
`dotMatch` is their exact matching semantics.  Any other input is
rejected with `Except.error` instead of being given unfaithful
semantics: on such inputs the program raises `re.error` (e.g. a captured
tag with an unbalanced `(`) or applies regex constructs this embedding
does not interpret (e.g. a `+` quantifier in a tag). -/
def changelog_hookChecked (st : CzState) (full_changelog : Str)
    (pcl : Option Str) : Except String Str :=
  if tagLoopOk st.github_repo (findTags full_changelog) &&
      bcLoopOk st.github_repo st.breaking_change_dicts then
    Except.ok (changelog_hook st full_changelog pcl)
  else
    Except.error "interpolated pattern outside the modelled class (re.error or unmodelled regex construct)"

/-! ## Spec-modelled independent replacement (for the refinement claim
about issue linking) -/

/-- Modelled from the spec: "Scan `parsedMessage.message` for all
substrings matching an issue-reference pattern: a `#` immediately followed
by one or more digits. For each match (processed left-to-right, duplicates
replaced independently per occurrence), replace the literal substring with
a markdown-style link `[#<digits>](<issueUrl(digits)>)`."  Each occurrence
is rewritten exactly once, in place, independently of the others.  The
`Bool` argument is `true` while inside the digit run of the occurrence
just rewritten (those characters were already emitted as part of the
link). -/
def specScan (repo : GitHubRepo) : Bool → Str → Str
  | _, [] => []
  | inDigits, c :: rest =>
    if inDigits ∧ c.isDigit then
      specScan repo true rest
    else if c = '#' ∧ headIsDigit rest then
      issueLink repo ('#' :: rest.takeWhile Char.isDigit) ++ specScan repo true rest
    else
      c :: specScan repo false rest

/-- Modelled from the spec (see `specScan`): independent left-to-right
replacement of every issue-reference occurrence. -/
def specIndependentLinkIssues (repo : GitHubRepo) (message : Str) : Str :=
  specScan repo false message

/-- The message value `changelog_message_builder_hook` stores back under
`"message"`: the issue-linked message followed by
`f" ([{short_commit_id}]({repo_commit_url}))"`.  Definitionally equal to
the hook's internal `let` chain. -/
def augmentedMessage (st : CzState) (commit : GitCommit) (m : Str) : Str :=
  linkIssues st.github_repo m ++ str " ([" ++ commit.rev.take 7 ++ str "](" ++
    st.github_repo.get_commit_url commit.rev ++ str "))"

/-! ## Structured changelog documents (for the tag-linking theorems) -/

/-- The text of a release heading after the `"## "` marker:
`<tag> (<date>)`. -/
def headingRest (tag date : Str) : Str := tag ++ ' ' :: '(' :: (date ++ [')'])

/-- A release heading line `## <tag> (<date>)`. -/
def headingLine (tag date : Str) : Str := str "## " ++ headingRest tag date

/-- A release heading after diff-linking:
`## [<tag>](<diff-url>) (<date>)`. -/
def linkedHeadingLine (repo : GitHubRepo) (older tag date : Str) : Str :=
  str "## [" ++ tag ++ str "](" ++ repo.get_diff_url older tag ++ str ") (" ++
    date ++ str ")"

/-! ## Structured messages (for the issue-linking theorems)

A message with `k` issue references decomposes uniquely as a plain leading
segment followed by `k` pairs of (reference, following segment).  These
definitions build a message from that decomposition and state what a fully
linked rendering looks like. -/

/-- A well-formed issue reference: `#` followed by one or more digits. -/
def IsIssueRef (r : Str) : Prop :=
  r.head? = some '#' ∧ r.tail ≠ [] ∧ ∀ c ∈ r.tail, c.isDigit = true

/-- Concatenate (reference, following-segment) pairs. -/
def assembleParts : List (Str × Str) → Str
  | [] => []
  | (ref, seg) :: rest => ref ++ seg ++ assembleParts rest

/-- A message from its decomposition: leading segment, then the pairs. -/
def assembleMsg (seg0 : Str) (parts : List (Str × Str)) : Str :=
  seg0 ++ assembleParts parts

/-- The same decomposition with every reference replaced by its markdown
issue link. -/
def assembleLinked (repo : GitHubRepo) : List (Str × Str) → Str
  | [] => []
  | (ref, seg) :: rest => issueLink repo ref ++ seg ++ assembleLinked repo rest

/-- A segment is inert when it contains no issue reference of its own and
does not begin with a digit (which would extend the preceding reference's
digit run). -/
def SegInert (seg : Str) : Prop :=
  findIssueRefs seg = [] ∧ ∀ c, seg.head? = some c → c.isDigit = false

instance (r : Str) : Decidable (IsIssueRef r) := by
  unfold IsIssueRef
  infer_instance

instance (seg : Str) : Decidable (SegInert seg) := by
  unfold SegInert
  infer_instance

/-! ## Concrete inputs used by closed theorems and witnesses -/

/-- The spec's running example repository: owner `acme`, name `widgets`. -/
def repoAcme : GitHubRepo := { owner := str "acme", name := str "widgets" }

/-- A fresh augmenter state for `repoAcme`. -/
def stAcme : CzState := { github_repo := repoAcme, breaking_change_dicts := [] }

/-- A parsed message holding the spec's example message and one extra key. -/
def pmExample : ParsedMessage :=
  [("message", str "fix: resolve #42"), ("change_type", str "fix")]

/-- The spec's example commit: revision `abcdef1234567890`, empty body. -/
def commitExample : GitCommit := { rev := str "abcdef1234567890", body := [] }

/-! # Theorems -/

/-! ## Line-structure lemmas -/

theorem linesOf_ne_nil (s : Str) : linesOf s ≠ [] := by
  match s with
  | [] => simp [linesOf]
  | c :: rest =>
    simp only [linesOf]
    split
    · simp
    · split <;> simp

theorem joinLines_linesOf (s : Str) : joinLines (linesOf s) = s := by
  induction s with
  | nil => rfl
  | cons c rest ih =>
    by_cases h : c = '\n'
    · subst h
      simp only [linesOf, if_pos rfl]
      obtain ⟨l, ls, he⟩ : ∃ l ls, linesOf rest = l :: ls := by
        cases hh : linesOf rest with
        | nil => exact absurd hh (linesOf_ne_nil rest)
        | cons l ls => exact ⟨l, ls, rfl⟩
      rw [he] at ih ⊢
      show joinLines ([] :: l :: ls) = '\n' :: rest
      rw [joinLines]
      simpa using ih
    · simp only [linesOf, if_neg h]
      cases hh : linesOf rest with
      | nil => exact absurd hh (linesOf_ne_nil rest)
      | cons l ls =>
        rw [hh] at ih
        cases ls with
        | nil =>
          show joinLines [c :: l] = c :: rest
          rw [joinLines] at ih ⊢
          simpa using ih
        | cons l2 ls2 =>
          show joinLines ((c :: l) :: l2 :: ls2) = c :: rest
          rw [joinLines] at ih ⊢
          simpa using ih

theorem linesOf_no_newline (l : Str) (h : '\n' ∉ l) : linesOf l = [l] := by
  induction l with
  | nil => rfl
  | cons c cl ih =>
    have hc : c ≠ '\n' := fun hc => h (hc ▸ List.mem_cons_self c cl)
    have ih2 := ih (fun hm => h (List.mem_cons_of_mem c hm))
    simp only [linesOf, if_neg hc, ih2]

theorem linesOf_append_newline (l t : Str) (h : '\n' ∉ l) :
    linesOf (l ++ '\n' :: t) = l :: linesOf t := by
  induction l with
  | nil => simp [linesOf]
  | cons c cl ih =>
    have hc : c ≠ '\n' := fun hc => h (hc ▸ List.mem_cons_self c cl)
    have ih2 := ih (fun hm => h (List.mem_cons_of_mem c hm))
    simp only [List.cons_append, linesOf, if_neg hc, List.append_eq, ih2]

theorem linesOf_joinLines (L : List Str) (hne : L ≠ [])
    (hL : ∀ l ∈ L, '\n' ∉ l) : linesOf (joinLines L) = L := by
  induction L with
  | nil => exact absurd rfl hne
  | cons l ls ih =>
    cases ls with
    | nil =>
      rw [joinLines]
      exact linesOf_no_newline l (hL l (List.mem_cons_self l []))
    | cons l2 ls2 =>
      rw [joinLines, linesOf_append_newline l _ (hL l (List.mem_cons_self l _)),
        ih (by simp) (fun x hx => hL x (List.mem_cons_of_mem l hx))]

/-! ## Dict lemmas -/

theorem lookup_dictSet_self (pm : ParsedMessage) (k : String) (v : Str) :
    List.lookup k (dictSet k v pm) = some v := by
  induction pm with
  | nil => simp [dictSet, List.lookup]
  | cons kv rest ih =>
    obtain ⟨k', v'⟩ := kv
    by_cases h : k' = k
    · simp [dictSet, if_pos h, List.lookup]
    · simp only [dictSet, if_neg h, List.lookup]
      have : (k == k') = false := by
        simp only [beq_eq_false_iff_ne, ne_eq]
        exact fun he => h he.symm
      simp [this, ih]

theorem lookup_dictSet_ne (pm : ParsedMessage) (k k' : String) (v : Str)
    (h : k' ≠ k) : List.lookup k' (dictSet k v pm) = List.lookup k' pm := by
  induction pm with
  | nil =>
    simp only [dictSet, List.lookup]
    have : (k' == k) = false := by simpa using h
    simp [this]
  | cons kv rest ih =>
    obtain ⟨k1, v1⟩ := kv
    by_cases h1 : k1 = k
    · subst h1
      simp only [dictSet, if_pos rfl, List.lookup]
      have : (k' == k1) = false := by simpa using h
      simp [this]
    · simp only [dictSet, if_neg h1, List.lookup, ih]

/-! ## Evaluation of the message hook under a present `"message"` key -/

theorem hook_eq_of_lookup (st : CzState) (pm : ParsedMessage) (commit : GitCommit)
    (m : Str) (h : List.lookup "message" pm = some m) :
    changelog_message_builder_hook st pm commit =
      some (dictSet "message" (augmentedMessage st commit m) pm,
        { st with
          breaking_change_dicts :=
            (st.breaking_change_dicts ++ (findBreakingChangeMessages commit.body).map
              (fun mm => ⟨mm.drop breaking_change_word.length, commit.rev⟩)) }) := by
  unfold changelog_message_builder_hook
  rw [h]
  rfl

/-! ## C7: construction requires the repository identity -/

/-- C7: constructing the augmenter with the `github_repo_owner` or the
`github_repo_name` setting absent raises (modelled as `Except.error`)
before anything else happens; with both present it succeeds with the
repository identity stored and the breaking-change accumulator empty (no
augmentation side effects). -/
theorem c7_init_requires_repo_identity :
    (∀ n, CustomCommitsCz.init ⟨none, n⟩ =
      Except.error "設定ファイルに`github_repo_owner`を設定してください。") ∧
    (∀ o, CustomCommitsCz.init ⟨some o, none⟩ =
      Except.error "設定ファイルに`github_repo_name`を設定してください。") ∧
    (∀ o n, CustomCommitsCz.init ⟨some o, some n⟩ =
      Except.ok { github_repo := { owner := o, name := n }, breaking_change_dicts := [] }) :=
  ⟨fun _ => rfl, fun _ => rfl, fun _ _ => rfl⟩

/-! ## C10: the document augmenter ignores its second argument -/

/-- C10: `changelog_hook` never reads `partial_changelog`; any two values
of that argument give identical output. -/
theorem c10_hook_ignores_second_argument (st : CzState) (full : Str)
    (p q : Option Str) : changelog_hook st full p = changelog_hook st full q := rfl

/-! ## C1: a second run of the message augmenter re-wraps issue links -/

/-- C1 (failing evaluation): running `changelog_message_builder_hook` a
second time on its own output wraps the already-linked `#42` again,
producing the nested link `[[#42](...)](...)`: the issue-reference
substitution is not idempotent. -/
theorem c1_second_run_double_wraps :
    (do
      let r1 ← changelog_message_builder_hook stAcme pmExample commitExample
      let r2 ← changelog_message_builder_hook r1.2 r1.1 commitExample
      List.lookup "message" r2.1) =
    some (str "fix: resolve [[#42](https://github.com/acme/widgets/issues/42)](https://github.com/acme/widgets/issues/42) ([abcdef1](https://github.com/acme/widgets/commit/abcdef1234567890)) ([abcdef1](https://github.com/acme/widgets/commit/abcdef1234567890))") := by
  decide

/-! ## C5: breaking-change text is matched as a regex, not literally -/

/-- C5 (failing evaluation): with accumulated text `a.c`, the document
line `xabc` does not end with `a.c`, yet the end-anchored substitution
(which interpolates the text into the regex unescaped, so `.` matches
any character) rewrites it, inserting the stored text over the matched
suffix. -/
theorem c5_metachar_text_rewrites_nonmatching_line :
    changelog_hook
      { github_repo := repoAcme
        breaking_change_dicts :=
          [{ breaking_change_message := str "a.c", commit_id := str "deadbee0000" }] }
      (str "xabc") none =
      str "xa.c ([deadbee](https://github.com/acme/widgets/commit/deadbee0000))" ∧
    ¬ str "a.c" <:+ str "xabc" := by
  constructor
  · decide
  · decide

/-! ## C2 counterexample: a marker in the middle of a line still records -/

/-- C2 (counterexample): the body `x BREAKING CHANGE: foo` has zero lines
beginning with the marker, yet one `BreakingChangeDict` is appended
(the `findall` pattern is not anchored at line start). -/
theorem c2_counterexample_midline_marker :
    ((changelog_message_builder_hook stAcme [("message", str "m")]
        { rev := str "cafebabe", body := str "x BREAKING CHANGE: foo" }).map
      (fun r => r.2.breaking_change_dicts)) =
      some [{ breaking_change_message := str "foo", commit_id := str "cafebabe" }] ∧
    ((linesOf (str "x BREAKING CHANGE: foo")).filter
      (fun l => breaking_change_word.isPrefixOf l)).length = 0 := by
  constructor
  · decide
  · decide

/-! ## C4 counterexample: duplicate occurrences are not replaced
independently -/

/-- C4 (counterexample): the message `#1 #1` contains two issue
references, but the chained global substitutions wrap each occurrence
twice (the second pass re-matches inside the links inserted by the
first), so the output does not consist of two links and differs from the
independent per-occurrence replacement the spec describes. -/
theorem c4_counterexample_duplicate_refs :
    findIssueRefs (str "#1 #1") = [str "#1", str "#1"] ∧
    linkIssues repoAcme (str "#1 #1") =
      str "[[#1](https://github.com/acme/widgets/issues/1)](https://github.com/acme/widgets/issues/1) [[#1](https://github.com/acme/widgets/issues/1)](https://github.com/acme/widgets/issues/1)" ∧
    linkIssues repoAcme (str "#1 #1") ≠ specIndependentLinkIssues repoAcme (str "#1 #1") := by
  refine ⟨by decide, by decide, by decide⟩

/-! ## C6: the augmented message ends with the commit link -/

/-- C6: for every state, parsed message and commit, the stored augmented
message is the issue-linked message followed by
` ([<first-7-of-rev>](<base>/commit/<rev>))`, so it ends with that commit
link. -/
theorem c6_augmented_message_ends_with_commit_link (st : CzState)
    (pm : ParsedMessage) (commit : GitCommit) (m : Str)
    (h : List.lookup "message" pm = some m) :
    ∃ pm2 st2, changelog_message_builder_hook st pm commit = some (pm2, st2) ∧
      List.lookup "message" pm2 = some (augmentedMessage st commit m) ∧
      (str " ([" ++ commit.rev.take 7 ++ str "](" ++
        st.github_repo.get_commit_url commit.rev ++ str "))") <:+
        augmentedMessage st commit m := by
  refine ⟨_, _, hook_eq_of_lookup st pm commit m h, lookup_dictSet_self pm _ _, ?_⟩
  exact ⟨linkIssues st.github_repo m, by simp [augmentedMessage, List.append_assoc]⟩

/-- C6 witness: the spec's end-to-end example, obtained by applying
`c6_augmented_message_ends_with_commit_link` at owner `acme`, name
`widgets`, message `fix: resolve #42`, revision `abcdef1234567890`. -/
theorem c6_witness :
    (changelog_message_builder_hook stAcme pmExample commitExample).map
      (fun r => List.lookup "message" r.1) =
      some (some (str "fix: resolve [#42](https://github.com/acme/widgets/issues/42) ([abcdef1](https://github.com/acme/widgets/commit/abcdef1234567890))")) := by
  obtain ⟨pm2, st2, he, hm, _⟩ :=
    c6_augmented_message_ends_with_commit_link stAcme pmExample commitExample
      (str "fix: resolve #42") (by decide)
  rw [he, Option.map_some', hm]
  decide

/-! ## C9: only the `"message"` binding changes -/

/-- C9: the hook returns the parsed message with exactly the `"message"`
binding rewritten (a single keyed store on the same mapping): every other
key reads unchanged.  The commit record is consumed read-only (the
embedding's state change touches only the breaking-change accumulator:
the repository field is returned unchanged). -/
theorem c9_mutates_only_message_field (st : CzState) (pm : ParsedMessage)
    (commit : GitCommit) (m : Str) (h : List.lookup "message" pm = some m) :
    ∃ st2, changelog_message_builder_hook st pm commit =
        some (dictSet "message" (augmentedMessage st commit m) pm, st2) ∧
      (∀ k, k ≠ "message" →
        List.lookup k (dictSet "message" (augmentedMessage st commit m) pm) =
          List.lookup k pm) ∧
      st2.github_repo = st.github_repo := by
  refine ⟨_, hook_eq_of_lookup st pm commit m h, ?_, rfl⟩
  intro k hk
  exact lookup_dictSet_ne pm "message" k _ hk

/-- C9 witness: at a concrete two-key mapping, the `change_type` binding
is untouched while `message` is rewritten. -/
theorem c9_witness :
    ∃ st2, changelog_message_builder_hook stAcme pmExample commitExample =
        some (dictSet "message"
          (augmentedMessage stAcme commitExample (str "fix: resolve #42")) pmExample, st2) ∧
      (∀ k, k ≠ "message" →
        List.lookup k (dictSet "message"
          (augmentedMessage stAcme commitExample (str "fix: resolve #42")) pmExample) =
          List.lookup k pmExample) ∧
      st2.github_repo = stAcme.github_repo :=
  c9_mutates_only_message_field stAcme pmExample commitExample
    (str "fix: resolve #42") (by decide)

/-! ## C8: a single-tag document is left unchanged -/

theorem map_eq_self {α : Type} (f : α → α) (L : List α) (h : ∀ x ∈ L, f x = x) :
    L.map f = L := by
  induction L with
  | nil => rfl
  | cons a l ih =>
    rw [List.map_cons, h a (List.mem_cons_self a l),
      ih (fun x hx => h x (List.mem_cons_of_mem a hx))]

theorem subTagLine_plain_id (tag l : Str) : subTagLine tag replacementPlain l = l := by
  unfold subTagLine
  split
  · split
    · rw [replacementPlain]
      show str "##" ++ ' ' :: _ ++ _ = _
      rw [str]
      simp [List.take_append_drop]
    · rfl
  · split
    · rw [replacementPlain]
      show str "#" ++ ' ' :: _ ++ _ = _
      rw [str]
      simp [List.take_append_drop]
    · rfl
  · rfl

theorem subTag_plain_id (tag doc : Str) : subTag tag replacementPlain doc = doc := by
  unfold subTag
  rw [map_eq_self _ _ (fun l _ => subTagLine_plain_id tag l), joinLines_linesOf]

/-- Helper: in the total model, a single-tag document with an empty
accumulator passes through unchanged (the single tag has no older
neighbour, so the `IndexError` branch rebuilds the heading as-is). -/
theorem single_tag_total_hook_id (st : CzState) (doc t : Str)
    (h1 : findTags doc = [t]) (h2 : st.breaking_change_dicts = []) :
    changelog_hook st doc none = doc := by
  unfold changelog_hook
  rw [h1, h2]
  show (tagLinkLoop st.github_repo [t] doc) = doc
  unfold tagLinkLoop
  show subTag t replacementPlain doc = doc
  exact subTag_plain_id t doc

/-- C8 (counterexample): `## v(a (2024-01-01)` is a document whose
heading scan yields exactly one tag, `v(a`, but that tag contains an
unbalanced `(`: the program's substitution pattern `(^#{1,2}) (v(a)`
does not compile (`re.error: missing ), unterminated subpattern`), so
`changelog_hook` raises on this document instead of returning it
unchanged; the checked embedding rejects it. -/
theorem c8_counterexample_invalid_regex_tag :
    findTags (str "## v(a (2024-01-01)") = [str "v(a"] ∧
    patternModelled (str "v(a") = false ∧
    changelog_hookChecked stAcme (str "## v(a (2024-01-01)") none =
      Except.error
        "interpolated pattern outside the modelled class (re.error or unmodelled regex construct)" := by
  refine ⟨by decide, by decide, ?_⟩
  rw [changelog_hookChecked, if_neg]
  intro hcon
  exact absurd hcon (by decide)

/-- C8 (amended): on a document whose heading scan yields exactly one
tag that lies in the modelled regex class (so the interpolated pattern
compiles and matches it literally except for `.`), with an empty
breaking-change accumulator, the hook completes normally and returns the
document unchanged, and applying it again to the result gives the same
answer as applying it once. -/
theorem c8_amended_single_modelled_tag (st : CzState) (doc t : Str)
    (h1 : findTags doc = [t]) (h2 : st.breaking_change_dicts = [])
    (h3 : patternModelled t = true) :
    changelog_hookChecked st doc none = Except.ok doc ∧
    (changelog_hookChecked st doc none).bind
      (fun d => changelog_hookChecked st d none) =
      changelog_hookChecked st doc none := by
  have hcond : (tagLoopOk st.github_repo (findTags doc) &&
      bcLoopOk st.github_repo st.breaking_change_dicts) = true := by
    rw [h1, h2]
    simp [tagLoopOk, bcLoopOk, h3]
  have hok : changelog_hookChecked st doc none = Except.ok doc := by
    rw [changelog_hookChecked, if_pos hcond, single_tag_total_hook_id st doc t h1 h2]
  refine ⟨hok, ?_⟩
  rw [hok]
  exact hok

/-- C8 witness: a concrete one-tag changelog with a modelled tag. -/
theorem c8_witness :
    changelog_hookChecked stAcme (str "## v1.0.0 (2024-01-01)\n- fix: a") none =
      Except.ok (str "## v1.0.0 (2024-01-01)\n- fix: a") ∧
    (changelog_hookChecked stAcme (str "## v1.0.0 (2024-01-01)\n- fix: a") none).bind
      (fun d => changelog_hookChecked stAcme d none) =
      changelog_hookChecked stAcme (str "## v1.0.0 (2024-01-01)\n- fix: a") none :=
  c8_amended_single_modelled_tag stAcme (str "## v1.0.0 (2024-01-01)\n- fix: a")
    (str "v1.0.0") (by decide) rfl (by decide)

/-! ## C2: line-by-line characterization of the breaking-change scan -/

theorem newline_not_mem_bc_word : '\n' ∉ breaking_change_word := by decide

theorem bc_not_isPrefixOf_newline (xs : Str) :
    breaking_change_word.isPrefixOf ('\n' :: xs) = false := by
  show List.isPrefixOf ('B' :: str "REAKING CHANGE: ") ('\n' :: xs) = false
  simp [List.isPrefixOf]

theorem isPrefixOf_append_newline :
    ∀ (pat l t : Str), '\n' ∉ pat →
      pat.isPrefixOf (l ++ '\n' :: t) = pat.isPrefixOf l := by
  intro pat
  induction pat with
  | nil => intro l t _; simp [List.isPrefixOf]
  | cons p ps ih =>
    intro l t hp
    have hpn : p ≠ '\n' := fun he => hp (he ▸ List.mem_cons_self p ps)
    have hps : '\n' ∉ ps := fun hm => hp (List.mem_cons_of_mem p hm)
    cases l with
    | nil =>
      show List.isPrefixOf (p :: ps) ('\n' :: t) = List.isPrefixOf (p :: ps) []
      simp [List.isPrefixOf, hpn]
    | cons c l' =>
      show List.isPrefixOf (p :: ps) (c :: (l' ++ '\n' :: t)) =
        List.isPrefixOf (p :: ps) (c :: l')
      simp [List.isPrefixOf, ih l' t hps]

theorem takeWhile_append_newline (l t : Str) (h : '\n' ∉ l) :
    (l ++ '\n' :: t).takeWhile (fun ch => ch ≠ '\n') = l := by
  induction l with
  | nil =>
    rw [List.nil_append, List.takeWhile_cons, if_neg]
    simp
  | cons c l' ih =>
    have hc : c ≠ '\n' := fun he => h (he ▸ List.mem_cons_self c l')
    rw [List.cons_append, List.takeWhile_cons, if_pos (by simp [hc]),
      ih (fun hm => h (List.mem_cons_of_mem c hm))]

theorem takeWhile_no_newline (l : Str) (h : '\n' ∉ l) :
    l.takeWhile (fun ch => ch ≠ '\n') = l := by
  induction l with
  | nil => rfl
  | cons c l' ih =>
    have hc : c ≠ '\n' := fun he => h (he ▸ List.mem_cons_self c l')
    rw [List.takeWhile_cons, if_pos (by simp [hc]),
      ih (fun hm => h (List.mem_cons_of_mem c hm))]

theorem bcScan_true_no_newline (l : Str) (h : '\n' ∉ l) : bcScan true l = [] := by
  induction l with
  | nil => rfl
  | cons c l' ih =>
    have hc : c ≠ '\n' := fun he => h (he ▸ List.mem_cons_self c l')
    rw [bcScan]
    simp [hc, ih (fun hm => h (List.mem_cons_of_mem c hm))]

theorem bcScan_true_append_newline (l t : Str) (h : '\n' ∉ l) :
    bcScan true (l ++ '\n' :: t) = bcScan false t := by
  induction l with
  | nil =>
    rw [List.nil_append, bcScan]
    simp [bc_not_isPrefixOf_newline]
  | cons c l' ih =>
    have hc : c ≠ '\n' := fun he => h (he ▸ List.mem_cons_self c l')
    rw [List.cons_append, bcScan]
    simp [hc, ih (fun hm => h (List.mem_cons_of_mem c hm))]

theorem bcScan_false_append_newline (l t : Str) (h : '\n' ∉ l) :
    bcScan false (l ++ '\n' :: t) = (lineBCMatch l).toList ++ bcScan false t := by
  induction l with
  | nil =>
    rw [List.nil_append, bcScan, lineBCMatch]
    simp [bc_not_isPrefixOf_newline]
  | cons c l' ih =>
    have hc : c ≠ '\n' := fun he => h (he ▸ List.mem_cons_self c l')
    have hl' : '\n' ∉ l' := fun hm => h (List.mem_cons_of_mem c hm)
    by_cases hp : breaking_change_word.isPrefixOf (c :: l')
    · have hp2 : breaking_change_word.isPrefixOf ((c :: l') ++ '\n' :: t) = true := by
        rw [isPrefixOf_append_newline _ _ _ newline_not_mem_bc_word, hp]
      rw [List.cons_append] at hp2
      rw [List.cons_append, bcScan, if_neg (by simp), if_pos hp2,
        takeWhile_append_newline l' t hl', bcScan_true_append_newline l' t hl',
        lineBCMatch, if_pos hp]
      rfl
    · have hp2 : breaking_change_word.isPrefixOf ((c :: l') ++ '\n' :: t) = false := by
        rw [isPrefixOf_append_newline _ _ _ newline_not_mem_bc_word]
        exact Bool.eq_false_iff.mpr hp
      rw [List.cons_append] at hp2
      rw [List.cons_append, bcScan, if_neg (by simp), if_neg (by simp [hp2]),
        ih hl', lineBCMatch, if_neg hp]

theorem bcScan_false_no_newline (l : Str) (h : '\n' ∉ l) :
    bcScan false l = (lineBCMatch l).toList := by
  induction l with
  | nil => rfl
  | cons c l' ih =>
    have hc : c ≠ '\n' := fun he => h (he ▸ List.mem_cons_self c l')
    have hl' : '\n' ∉ l' := fun hm => h (List.mem_cons_of_mem c hm)
    by_cases hp : breaking_change_word.isPrefixOf (c :: l')
    · rw [bcScan, if_neg (by simp), if_pos hp, takeWhile_no_newline l' hl',
        bcScan_true_no_newline l' hl', lineBCMatch, if_pos hp]
      rfl
    · rw [bcScan, if_neg (by simp), if_neg (by simp [hp]), ih hl',
        lineBCMatch, if_neg hp]

theorem linesOf_no_newline_mem (s : Str) : ∀ l ∈ linesOf s, '\n' ∉ l := by
  induction s with
  | nil => intro l hl; simp [linesOf] at hl; simp [hl]
  | cons c rest ih =>
    intro l hl
    by_cases hc : c = '\n'
    · rw [linesOf, if_pos hc] at hl
      rcases List.mem_cons.mp hl with h1 | h1
      · simp [h1]
      · exact ih l h1
    · rw [linesOf, if_neg hc] at hl
      cases hh : linesOf rest with
      | nil => exact absurd hh (linesOf_ne_nil rest)
      | cons l0 ls =>
        rw [hh] at hl
        rcases List.mem_cons.mp hl with h1 | h1
        · subst h1
          intro hm
          rcases List.mem_cons.mp hm with h2 | h2
          · exact hc h2.symm
          · exact ih l0 (hh ▸ List.mem_cons_self l0 ls) h2
        · exact ih l (hh ▸ List.mem_cons_of_mem l0 h1)

theorem bcScan_joinLines (L : List Str) (hL : ∀ l ∈ L, '\n' ∉ l) :
    bcScan false (joinLines L) = L.filterMap lineBCMatch := by
  induction L with
  | nil => rfl
  | cons l ls ih =>
    cases ls with
    | nil =>
      rw [joinLines, List.filterMap_cons, List.filterMap_nil]
      rw [bcScan_false_no_newline l (hL l (List.mem_cons_self l []))]
      cases lineBCMatch l <;> simp
    | cons l2 ls2 =>
      rw [joinLines, List.filterMap_cons,
        bcScan_false_append_newline l _ (hL l (List.mem_cons_self l _)),
        ih (fun x hx => hL x (List.mem_cons_of_mem l hx))]
      cases lineBCMatch l <;> simp

/-- `findall` over a multi-line body is the per-line first-marker match,
in line order. -/
theorem findBreakingChangeMessages_lines (s : Str) :
    findBreakingChangeMessages s = (linesOf s).filterMap lineBCMatch := by
  have h := bcScan_joinLines (linesOf s) (linesOf_no_newline_mem s)
  rw [joinLines_linesOf] at h
  exact h

theorem lineBCMatch_none_iff (l : Str) :
    lineBCMatch l = none ↔ ¬ breaking_change_word <:+: l := by
  induction l with
  | nil =>
    rw [lineBCMatch]
    simp only [true_iff]
    intro hinf
    have : breaking_change_word = [] := List.eq_nil_of_infix_nil hinf
    exact absurd this (by decide)
  | cons c rest ih =>
    by_cases hp : breaking_change_word.isPrefixOf (c :: rest)
    · rw [lineBCMatch, if_pos hp]
      simp only [reduceCtorEq, false_iff, not_not]
      exact (List.isPrefixOf_iff_prefix.mp hp).isInfix
    · rw [lineBCMatch, if_neg hp, ih]
      constructor
      · intro hn hinf
        rcases List.infix_cons_iff.mp hinf with h1 | h1
        · exact hp (List.isPrefixOf_iff_prefix.mpr h1)
        · exact hn h1
      · intro hn hinf
        exact hn (List.infix_cons hinf)

/-- C2 (amended): one hook call appends exactly one record per body line
containing the marker (at any position, not only at line start), in line
order; each record holds the part of the line after the first marker
occurrence, and the commit's revision.  Lines without the marker
contribute nothing (`lineBCMatch` is `none` exactly on those lines). -/
theorem c2_amended_records_per_marker_line (st : CzState) (pm : ParsedMessage)
    (commit : GitCommit) (m : Str) (h : List.lookup "message" pm = some m) :
    ((changelog_message_builder_hook st pm commit).map
      (fun r => r.2.breaking_change_dicts)) =
      some (st.breaking_change_dicts ++ (linesOf commit.body).filterMap
        (fun l => (lineBCMatch l).map
          (fun mm => ⟨mm.drop breaking_change_word.length, commit.rev⟩))) ∧
    (∀ l, lineBCMatch l = none ↔ ¬ breaking_change_word <:+: l) := by
  constructor
  · rw [hook_eq_of_lookup st pm commit m h, Option.map_some']
    show some (st.breaking_change_dicts ++ _) = _
    rw [findBreakingChangeMessages_lines commit.body, List.map_filterMap]
  · exact lineBCMatch_none_iff

/-- C2 witness: a three-line body with a line-initial marker, a plain
line, and a mid-line marker. -/
theorem c2_witness :
    ((changelog_message_builder_hook stAcme [("message", str "m")]
        { rev := str "cafebabe"
          body := str "BREAKING CHANGE: a\nplain\nx BREAKING CHANGE: b" }).map
      (fun r => r.2.breaking_change_dicts)) =
      some ((stAcme.breaking_change_dicts ++
        (linesOf (str "BREAKING CHANGE: a\nplain\nx BREAKING CHANGE: b")).filterMap
          (fun l => (lineBCMatch l).map
            (fun mm => ⟨mm.drop breaking_change_word.length, str "cafebabe"⟩)))) :=
  (c2_amended_records_per_marker_line stAcme [("message", str "m")]
    { rev := str "cafebabe", body := str "BREAKING CHANGE: a\nplain\nx BREAKING CHANGE: b" }
    (str "m") (by decide)).1

/-! ## C3: tag extraction from well-formed headings -/

theorem tagEndFeasible_three_le (r : Str) (p : Nat)
    (h : tagEndFeasible r p = true) : 3 ≤ p := by
  have := (Bool.and_eq_true _ _).mp ((Bool.and_eq_true _ _).mp
    ((Bool.and_eq_true _ _).mp h).1).1
  exact of_decide_eq_true this.1

theorem findMaxPAux_spec (r : Str) (p₀ : Nat)
    (h0 : tagEndFeasible r p₀ = true)
    (habove : ∀ p, p₀ < p → tagEndFeasible r p = false) :
    ∀ n, p₀ ≤ n → findMaxPAux r n = some p₀ := by
  intro n
  induction n with
  | zero =>
    intro hle
    have := tagEndFeasible_three_le r p₀ h0
    omega
  | succ k ih =>
    intro hle
    by_cases he : p₀ = k + 1
    · subst he
      rw [findMaxPAux, if_pos h0]
    · have hlt : p₀ ≤ k := by omega
      rw [findMaxPAux, if_neg (by simp [habove (k + 1) (by omega)]), ih hlt]

theorem headingRest_no_space_above (tag date : Str) (hd : ' ' ∉ date)
    (p : Nat) (hp : tag.length < p) : (headingRest tag date)[p]? ≠ some ' ' := by
  rw [headingRest, List.getElem?_append_right (by omega)]
  obtain ⟨j, hj⟩ : ∃ j, p - tag.length = j + 1 := ⟨p - tag.length - 1, by omega⟩
  rw [hj]
  simp only [List.getElem?_cons_succ]
  cases j with
  | zero => simp
  | succ j2 =>
    simp only [List.getElem?_cons_succ]
    by_cases hjd : j2 < date.length
    · rw [List.getElem?_append_left hjd, List.getElem?_eq_getElem hjd]
      intro hcon
      exact hd (Option.some_inj.mp hcon ▸ date.getElem_mem hjd)
    · rw [List.getElem?_append_right (by omega)]
      by_cases hje : j2 - date.length = 0
      · rw [hje]
        simp
      · rw [List.getElem?_eq_none (by simp; omega)]
        simp

theorem tagEndFeasible_headingRest (tag date : Str) (hlen : 3 ≤ tag.length) :
    tagEndFeasible (headingRest tag date) tag.length = true := by
  rw [tagEndFeasible, headingRest]
  have h1 : (tag ++ ' ' :: '(' :: (date ++ [')']))[tag.length]? = some ' ' := by
    rw [List.getElem?_append_right (Nat.le_refl _), Nat.sub_self]
    rfl
  have h2 : (tag ++ ' ' :: '(' :: (date ++ [')']))[tag.length + 1]? = some '(' := by
    rw [List.getElem?_append_right (by omega)]
    have : tag.length + 1 - tag.length = 1 := by omega
    rw [this]
    simp
  have h3 : (tag ++ ' ' :: '(' :: (date ++ [')'])).drop (tag.length + 2) = date ++ [')'] := by
    have : tag.length + 2 = (tag ++ [' ', '(']).length := by simp
    rw [this, show tag ++ ' ' :: '(' :: (date ++ [')']) =
      (tag ++ [' ', '(']) ++ (date ++ [')']) by simp, List.drop_left]
  rw [h1, h2, h3]
  have h4 : (date ++ [')']).contains ')' = true :=
    List.elem_eq_true_of_mem (List.mem_append_right date (List.mem_singleton.mpr rfl))
  simp [hlen, h4]

theorem tagEndFeasible_headingRest_above (tag date : Str) (hd : ' ' ∉ date)
    (p : Nat) (hp : tag.length < p) : tagEndFeasible (headingRest tag date) p = false := by
  rw [tagEndFeasible]
  have := headingRest_no_space_above tag date hd p hp
  simp only [Bool.and_eq_false_iff]
  left
  left
  right
  simpa using this

theorem tagOfRest_headingRest (tag date : Str) (hv : ∃ r, tag = 'v' :: r)
    (hlen : 3 ≤ tag.length) (hd : ' ' ∉ date) :
    tagOfRest (headingRest tag date) = some tag := by
  obtain ⟨tr, htr⟩ := hv
  have hfind : findMaxPAux (headingRest tag date) (headingRest tag date).length =
      some tag.length := by
    apply findMaxPAux_spec _ _ (tagEndFeasible_headingRest tag date hlen)
      (tagEndFeasible_headingRest_above tag date hd)
    rw [headingRest]
    simp
  have hrest : headingRest tag date = 'v' :: (tr ++ ' ' :: '(' :: (date ++ [')'])) := by
    rw [headingRest, htr]
    rfl
  rw [hrest] at hfind ⊢
  rw [tagOfRest]
  simp only [hfind]
  rw [← hrest, headingRest, List.take_left]

theorem headingLine_cons (tag date : Str) :
    headingLine tag date = '#' :: '#' :: ' ' :: headingRest tag date := rfl

theorem lineTag_headingLine (tag date : Str) (hv : ∃ r, tag = 'v' :: r)
    (hlen : 3 ≤ tag.length) (hd : ' ' ∉ date) :
    lineTag (headingLine tag date) = some tag := by
  rw [headingLine_cons, lineTag]
  exact tagOfRest_headingRest tag date hv hlen hd

theorem lineTag_of_head_ne (l : Str) (h : l.head? ≠ some '#') :
    lineTag l = none := by
  rw [lineTag.eq_def]
  split
  · simp at h
  · simp at h
  · rfl

/-! ## C3: per-line behaviour of the tag substitution -/

theorem dotMatch_refl (t : Str) : dotMatch t t = true := by
  induction t with
  | nil => rfl
  | cons c cs ih => rw [dotMatch]; simp [ih]

theorem dotMatch_head_ne (p c : Char) (ps cs : Str) (h1 : p ≠ '.') (h2 : p ≠ c) :
    dotMatch (p :: ps) (c :: cs) = false := by
  rw [dotMatch]
  simp [h1, h2]

theorem subTagLine_hh (tag : Str) (repl : Str → Str → Str) (r : Str) :
    subTagLine tag repl ('#' :: '#' :: ' ' :: r) =
      if dotMatch tag (r.take tag.length) then
        repl (str "##") (r.take tag.length) ++ r.drop tag.length
      else '#' :: '#' :: ' ' :: r := rfl

theorem subTagLine_of_head_ne (tag : Str) (repl : Str → Str → Str) (l : Str)
    (h : l.head? ≠ some '#') : subTagLine tag repl l = l := by
  rw [subTagLine.eq_def]
  split
  · simp at h
  · simp at h
  · rfl

theorem subTagLine_headingLine_self (tag date : Str) (repl : Str → Str → Str) :
    subTagLine tag repl (headingLine tag date) =
      repl (str "##") tag ++ ' ' :: '(' :: (date ++ [')']) := by
  rw [headingLine_cons, subTagLine_hh, headingRest, List.take_left, List.drop_left,
    if_pos (dotMatch_refl tag)]

theorem subTagLine_headingLine_other (tag t' d' : Str) (repl : Str → Str → Str)
    (hm : dotMatch tag ((headingRest t' d').take tag.length) = false) :
    subTagLine tag repl (headingLine t' d') = headingLine t' d' := by
  rw [headingLine_cons, subTagLine_hh, if_neg (by simp [hm])]

theorem subTagLine_linkedHeadingLine (tag : Str) (hv : ∃ r, tag = 'v' :: r)
    (repl : Str → Str → Str) (repo : GitHubRepo) (older t' d' : Str) :
    subTagLine tag repl (linkedHeadingLine repo older t' d') =
      linkedHeadingLine repo older t' d' := by
  obtain ⟨rest, hrest⟩ :
      ∃ rest, linkedHeadingLine repo older t' d' = '#' :: '#' :: ' ' :: '[' :: rest :=
    ⟨_, rfl⟩
  obtain ⟨tr, htr⟩ := hv
  rw [hrest, subTagLine_hh]
  have hm : dotMatch tag (('[' :: rest).take tag.length) = false := by
    rw [htr]
    simp only [List.length_cons, List.take_succ_cons]
    exact dotMatch_head_ne 'v' '[' tr _ (by decide) (by decide)
  rw [if_neg (by simp [hm])]

theorem replacementLinked_heading (repo : GitHubRepo) (older tag date : Str) :
    replacementLinked repo older tag (str "##") tag ++ ' ' :: '(' :: (date ++ [')']) =
      linkedHeadingLine repo older tag date := by
  rw [replacementLinked, linkedHeadingLine]
  rw [show str "##" = ['#', '#'] from rfl, show str " [" = [' ', '['] from rfl,
    show str "](" = [']', '('] from rfl, show str ")" = [')'] from rfl,
    show str "## [" = ['#', '#', ' ', '['] from rfl,
    show str ") (" = [')', ' ', '('] from rfl]
  simp [List.append_assoc]

theorem newline_not_mem_headingLine (t d : Str) (ht : '\n' ∉ t) (hd : '\n' ∉ d) :
    '\n' ∉ headingLine t d := by
  rw [headingLine_cons, headingRest]
  intro h
  simp at h
  rcases h with h | h
  · exact ht h
  · exact hd h

theorem newline_not_mem_linkedHeadingLine (repo : GitHubRepo) (older t d : Str)
    (ho : '\n' ∉ repo.owner) (hn : '\n' ∉ repo.name) (holder : '\n' ∉ older)
    (ht : '\n' ∉ t) (hd : '\n' ∉ d) : '\n' ∉ linkedHeadingLine repo older t d := by
  have h1 : '\n' ∉ str "## [" := by decide
  have h2 : '\n' ∉ str "](" := by decide
  have h3 : '\n' ∉ str ") (" := by decide
  have h4 : '\n' ∉ str ")" := by decide
  have h5 : '\n' ∉ str "https://github.com/" := by decide
  have h6 : '\n' ∉ str "/" := by decide
  have h7 : '\n' ∉ str "/compare/" := by decide
  have h8 : '\n' ∉ str "..." := by decide
  intro h
  simp only [linkedHeadingLine, GitHubRepo.get_diff_url, GitHubRepo.url,
    List.mem_append] at h
  tauto

/-- Helper for C3: in the total model, the heading scan finds exactly
`[t3, t2, t1]` and the tag pass links the two newer headings and leaves
the oldest unchanged.  (The claim theorem `c3_tag_diff_links` wraps this
with the regex side conditions through `changelog_hookChecked`.) -/
theorem tag_diff_links_total (repo : GitHubRepo) (t3 t2 t1 d3 d2 d1 : Str)
    (B0 B1 B2 B3 : List Str)
    (hv3 : ∃ r, t3 = 'v' :: r) (hv2 : ∃ r, t2 = 'v' :: r) (hv1 : ∃ r, t1 = 'v' :: r)
    (hl3 : 3 ≤ t3.length) (hl2 : 3 ≤ t2.length) (hl1 : 3 ≤ t1.length)
    (hsd3 : ' ' ∉ d3) (hsd2 : ' ' ∉ d2) (hsd1 : ' ' ∉ d1)
    (hn3 : '\n' ∉ t3) (hn2 : '\n' ∉ t2) (hn1 : '\n' ∉ t1)
    (hnd3 : '\n' ∉ d3) (hnd2 : '\n' ∉ d2) (hnd1 : '\n' ∉ d1)
    (hno : '\n' ∉ repo.owner) (hnn : '\n' ∉ repo.name)
    (hm32 : dotMatch t3 ((headingRest t2 d2).take t3.length) = false)
    (hm31 : dotMatch t3 ((headingRest t1 d1).take t3.length) = false)
    (hm21 : dotMatch t2 ((headingRest t1 d1).take t2.length) = false)
    (hB : ∀ l ∈ B0 ++ B1 ++ B2 ++ B3, l.head? ≠ some '#' ∧ '\n' ∉ l) :
    findTags (joinLines (B0 ++ [headingLine t3 d3] ++ B1 ++ [headingLine t2 d2] ++
      B2 ++ [headingLine t1 d1] ++ B3)) = [t3, t2, t1] ∧
    changelog_hook ⟨repo, []⟩
      (joinLines (B0 ++ [headingLine t3 d3] ++ B1 ++ [headingLine t2 d2] ++
        B2 ++ [headingLine t1 d1] ++ B3)) none =
    joinLines (B0 ++ [linkedHeadingLine repo t2 t3 d3] ++ B1 ++
      [linkedHeadingLine repo t1 t2 d2] ++ B2 ++ [headingLine t1 d1] ++ B3) := by
  have hB0 : ∀ l ∈ B0, l.head? ≠ some '#' ∧ '\n' ∉ l := fun l hl => hB l (by simp [hl])
  have hB1 : ∀ l ∈ B1, l.head? ≠ some '#' ∧ '\n' ∉ l := fun l hl => hB l (by simp [hl])
  have hB2 : ∀ l ∈ B2, l.head? ≠ some '#' ∧ '\n' ∉ l := fun l hl => hB l (by simp [hl])
  have hB3 : ∀ l ∈ B3, l.head? ≠ some '#' ∧ '\n' ∉ l := fun l hl => hB l (by simp [hl])
  have hlinesL : ∀ l ∈ (B0 ++ [headingLine t3 d3] ++ B1 ++ [headingLine t2 d2] ++
      B2 ++ [headingLine t1 d1] ++ B3), '\n' ∉ l := by
    intro l hl
    simp only [List.mem_append, List.mem_singleton] at hl
    rcases hl with ((((((hl | hl) | hl) | hl) | hl) | hl) | hl)
    · exact (hB0 l hl).2
    · exact hl ▸ newline_not_mem_headingLine t3 d3 hn3 hnd3
    · exact (hB1 l hl).2
    · exact hl ▸ newline_not_mem_headingLine t2 d2 hn2 hnd2
    · exact (hB2 l hl).2
    · exact hl ▸ newline_not_mem_headingLine t1 d1 hn1 hnd1
    · exact (hB3 l hl).2
  have hdocL : linesOf (joinLines (B0 ++ [headingLine t3 d3] ++ B1 ++
      [headingLine t2 d2] ++ B2 ++ [headingLine t1 d1] ++ B3)) =
      (B0 ++ [headingLine t3 d3] ++ B1 ++ [headingLine t2 d2] ++
        B2 ++ [headingLine t1 d1] ++ B3) :=
    linesOf_joinLines _ (by simp) hlinesL
  have f0 : List.filterMap lineTag B0 = [] :=
    List.filterMap_eq_nil_iff.mpr (fun l hl => lineTag_of_head_ne l (hB0 l hl).1)
  have f1 : List.filterMap lineTag B1 = [] :=
    List.filterMap_eq_nil_iff.mpr (fun l hl => lineTag_of_head_ne l (hB1 l hl).1)
  have f2 : List.filterMap lineTag B2 = [] :=
    List.filterMap_eq_nil_iff.mpr (fun l hl => lineTag_of_head_ne l (hB2 l hl).1)
  have f3 : List.filterMap lineTag B3 = [] :=
    List.filterMap_eq_nil_iff.mpr (fun l hl => lineTag_of_head_ne l (hB3 l hl).1)
  have htags : findTags (joinLines (B0 ++ [headingLine t3 d3] ++ B1 ++
      [headingLine t2 d2] ++ B2 ++ [headingLine t1 d1] ++ B3)) = [t3, t2, t1] := by
    rw [findTags, hdocL]
    simp [List.filterMap_append, f0, f1, f2, f3,
      lineTag_headingLine t3 d3 hv3 hl3 hsd3,
      lineTag_headingLine t2 d2 hv2 hl2 hsd2,
      lineTag_headingLine t1 d1 hv1 hl1 hsd1]
  refine ⟨htags, ?_⟩
  have h0 : changelog_hook ⟨repo, []⟩ (joinLines (B0 ++ [headingLine t3 d3] ++ B1 ++
      [headingLine t2 d2] ++ B2 ++ [headingLine t1 d1] ++ B3)) none =
      tagLinkLoop repo (findTags (joinLines (B0 ++ [headingLine t3 d3] ++ B1 ++
        [headingLine t2 d2] ++ B2 ++ [headingLine t1 d1] ++ B3)))
        (joinLines (B0 ++ [headingLine t3 d3] ++ B1 ++ [headingLine t2 d2] ++
          B2 ++ [headingLine t1 d1] ++ B3)) := rfl
  rw [h0, htags]
  have hloop : ∀ doc : Str, tagLinkLoop repo [t3, t2, t1] doc =
      subTag t1 replacementPlain
        (subTag t2 (replacementLinked repo t1 t2)
          (subTag t3 (replacementLinked repo t2 t3) doc)) := fun doc => rfl
  rw [hloop]
  have hpass3 : subTag t3 (replacementLinked repo t2 t3)
      (joinLines (B0 ++ [headingLine t3 d3] ++ B1 ++ [headingLine t2 d2] ++
        B2 ++ [headingLine t1 d1] ++ B3)) =
      joinLines (B0 ++ [linkedHeadingLine repo t2 t3 d3] ++ B1 ++
        [headingLine t2 d2] ++ B2 ++ [headingLine t1 d1] ++ B3) := by
    rw [subTag, hdocL]
    congr 1
    simp only [List.map_append, List.map_cons, List.map_nil]
    rw [map_eq_self _ B0 (fun l hl => subTagLine_of_head_ne _ _ l (hB0 l hl).1),
      map_eq_self _ B1 (fun l hl => subTagLine_of_head_ne _ _ l (hB1 l hl).1),
      map_eq_self _ B2 (fun l hl => subTagLine_of_head_ne _ _ l (hB2 l hl).1),
      map_eq_self _ B3 (fun l hl => subTagLine_of_head_ne _ _ l (hB3 l hl).1),
      subTagLine_headingLine_self t3 d3 _, replacementLinked_heading repo t2 t3 d3,
      subTagLine_headingLine_other t3 t2 d2 _ hm32,
      subTagLine_headingLine_other t3 t1 d1 _ hm31]
  rw [hpass3]
  have hlines1 : ∀ l ∈ (B0 ++ [linkedHeadingLine repo t2 t3 d3] ++ B1 ++
      [headingLine t2 d2] ++ B2 ++ [headingLine t1 d1] ++ B3), '\n' ∉ l := by
    intro l hl
    simp only [List.mem_append, List.mem_singleton] at hl
    rcases hl with ((((((hl | hl) | hl) | hl) | hl) | hl) | hl)
    · exact (hB0 l hl).2
    · exact hl ▸ newline_not_mem_linkedHeadingLine repo t2 t3 d3 hno hnn hn2 hn3 hnd3
    · exact (hB1 l hl).2
    · exact hl ▸ newline_not_mem_headingLine t2 d2 hn2 hnd2
    · exact (hB2 l hl).2
    · exact hl ▸ newline_not_mem_headingLine t1 d1 hn1 hnd1
    · exact (hB3 l hl).2
  have hdoc1 : linesOf (joinLines (B0 ++ [linkedHeadingLine repo t2 t3 d3] ++ B1 ++
      [headingLine t2 d2] ++ B2 ++ [headingLine t1 d1] ++ B3)) =
      (B0 ++ [linkedHeadingLine repo t2 t3 d3] ++ B1 ++ [headingLine t2 d2] ++
        B2 ++ [headingLine t1 d1] ++ B3) :=
    linesOf_joinLines _ (by simp) hlines1
  have hpass2 : subTag t2 (replacementLinked repo t1 t2)
      (joinLines (B0 ++ [linkedHeadingLine repo t2 t3 d3] ++ B1 ++
        [headingLine t2 d2] ++ B2 ++ [headingLine t1 d1] ++ B3)) =
      joinLines (B0 ++ [linkedHeadingLine repo t2 t3 d3] ++ B1 ++
        [linkedHeadingLine repo t1 t2 d2] ++ B2 ++ [headingLine t1 d1] ++ B3) := by
    rw [subTag, hdoc1]
    congr 1
    simp only [List.map_append, List.map_cons, List.map_nil]
    rw [map_eq_self _ B0 (fun l hl => subTagLine_of_head_ne _ _ l (hB0 l hl).1),
      map_eq_self _ B1 (fun l hl => subTagLine_of_head_ne _ _ l (hB1 l hl).1),
      map_eq_self _ B2 (fun l hl => subTagLine_of_head_ne _ _ l (hB2 l hl).1),
      map_eq_self _ B3 (fun l hl => subTagLine_of_head_ne _ _ l (hB3 l hl).1),
      subTagLine_linkedHeadingLine t2 hv2 _ repo t2 t3 d3,
      subTagLine_headingLine_self t2 d2 _, replacementLinked_heading repo t1 t2 d2,
      subTagLine_headingLine_other t2 t1 d1 _ hm21]
  rw [hpass2, subTag_plain_id]

/-- C3 counterexample: a three-heading changelog whose newest captured tag
is `v(a`.  The document has exactly the shape the claim quantifies over
(the heading scan returns the three tags newest-first), but the tag is
interpolated unescaped into the search pattern `(^#{1,2}) (v(a)`, which
does not compile (`re.error: missing ), unterminated subpattern`): the
hook raises on the first substitution pass and produces no linked
document at all, so the claimed rewrite does not happen; the checked
embedding rejects the document. -/
theorem c3_counterexample_invalid_regex_tag :
    findTags (str "## v(a (2024-03-01)\n## v2.0.0 (2024-02-01)\n## v1.0.0 (2024-01-01)") =
      [str "v(a", str "v2.0.0", str "v1.0.0"] ∧
    patternModelled (str "v(a") = false ∧
    changelog_hookChecked stAcme
      (str "## v(a (2024-03-01)\n## v2.0.0 (2024-02-01)\n## v1.0.0 (2024-01-01)") none =
    Except.error
      "interpolated pattern outside the modelled class (re.error or unmodelled regex construct)" := by
  refine ⟨by decide, by decide, ?_⟩
  rw [changelog_hookChecked, if_neg]
  intro hcon
  exact absurd hcon (by decide)

/-- C3 amended: on a changelog whose lines are three well-formed version
headings `## <tag> (<date>)` separated by non-heading body lines, with the
tags in the modelled literal-or-dot pattern class (no other regex
metacharacters, so the interpolated `re.sub` patterns compile and behave
as modelled), a backslash-free repository identity, and pairwise
non-cross-matching tags, the changelog hook succeeds and rewrites the
two newer headings into diff links `## [tag](<base>/compare/older...tag)
(<date>)` while the oldest heading and all body lines stay unchanged. -/
theorem c3_tag_diff_links (repo : GitHubRepo) (t3 t2 t1 d3 d2 d1 : Str)
    (B0 B1 B2 B3 : List Str)
    (hv3 : ∃ r, t3 = 'v' :: r) (hv2 : ∃ r, t2 = 'v' :: r) (hv1 : ∃ r, t1 = 'v' :: r)
    (hl3 : 3 ≤ t3.length) (hl2 : 3 ≤ t2.length) (hl1 : 3 ≤ t1.length)
    (hsd3 : ' ' ∉ d3) (hsd2 : ' ' ∉ d2) (hsd1 : ' ' ∉ d1)
    (hn3 : '\n' ∉ t3) (hn2 : '\n' ∉ t2) (hn1 : '\n' ∉ t1)
    (hnd3 : '\n' ∉ d3) (hnd2 : '\n' ∉ d2) (hnd1 : '\n' ∉ d1)
    (hno : '\n' ∉ repo.owner) (hnn : '\n' ∉ repo.name)
    (hp3 : patternModelled t3 = true) (hp2 : patternModelled t2 = true)
    (hp1 : patternModelled t1 = true)
    (hbo : repo.owner.contains '\\' = false)
    (hbn : repo.name.contains '\\' = false)
    (hm32 : dotMatch t3 ((headingRest t2 d2).take t3.length) = false)
    (hm31 : dotMatch t3 ((headingRest t1 d1).take t3.length) = false)
    (hm21 : dotMatch t2 ((headingRest t1 d1).take t2.length) = false)
    (hB : ∀ l ∈ B0 ++ B1 ++ B2 ++ B3, l.head? ≠ some '#' ∧ '\n' ∉ l) :
    changelog_hookChecked ⟨repo, []⟩
      (joinLines (B0 ++ [headingLine t3 d3] ++ B1 ++ [headingLine t2 d2] ++
        B2 ++ [headingLine t1 d1] ++ B3)) none =
    Except.ok (joinLines (B0 ++ [linkedHeadingLine repo t2 t3 d3] ++ B1 ++
      [linkedHeadingLine repo t1 t2 d2] ++ B2 ++ [headingLine t1 d1] ++ B3)) := by
  obtain ⟨htags, hhook⟩ := tag_diff_links_total repo t3 t2 t1 d3 d2 d1 B0 B1 B2 B3
    hv3 hv2 hv1 hl3 hl2 hl1 hsd3 hsd2 hsd1 hn3 hn2 hn1 hnd3 hnd2 hnd1 hno hnn
    hm32 hm31 hm21 hB
  have hbo' : '\\' ∉ repo.owner := by
    intro hmem
    rw [List.contains, List.elem_eq_true_of_mem hmem] at hbo
    exact absurd hbo (by decide)
  have hbn' : '\\' ∉ repo.name := by
    intro hmem
    rw [List.contains, List.elem_eq_true_of_mem hmem] at hbn
    exact absurd hbn (by decide)
  have hcond : (tagLoopOk repo (findTags (joinLines (B0 ++ [headingLine t3 d3] ++
      B1 ++ [headingLine t2 d2] ++ B2 ++ [headingLine t1 d1] ++ B3))) &&
      bcLoopOk repo []) = true := by
    rw [htags]
    simp [tagLoopOk, bcLoopOk, hp1, hp2, hp3, hbo', hbn']
  rw [changelog_hookChecked, if_pos hcond, hhook]

/-- C3 witness: a concrete changelog with tags `v3.0.0`, `v2.0.0`,
`v1.0.0`. -/
theorem c3_witness :
    changelog_hookChecked ⟨repoAcme, []⟩
      (joinLines ([] ++ [headingLine (str "v3.0.0") (str "2024-03-01")] ++
        [str "- feat: x"] ++ [headingLine (str "v2.0.0") (str "2024-02-01")] ++
        [str "- fix: y"] ++ [headingLine (str "v1.0.0") (str "2024-01-01")] ++
        [str "- z"])) none =
    Except.ok (joinLines ([] ++
      [linkedHeadingLine repoAcme (str "v2.0.0") (str "v3.0.0") (str "2024-03-01")] ++
      [str "- feat: x"] ++
      [linkedHeadingLine repoAcme (str "v1.0.0") (str "v2.0.0") (str "2024-02-01")] ++
      [str "- fix: y"] ++ [headingLine (str "v1.0.0") (str "2024-01-01")] ++
      [str "- z"])) :=
  c3_tag_diff_links repoAcme (str "v3.0.0") (str "v2.0.0") (str "v1.0.0")
    (str "2024-03-01") (str "2024-02-01") (str "2024-01-01")
    [] [str "- feat: x"] [str "- fix: y"] [str "- z"]
    ⟨str "3.0.0", rfl⟩ ⟨str "2.0.0", rfl⟩ ⟨str "1.0.0", rfl⟩
    (by decide) (by decide) (by decide)
    (by decide) (by decide) (by decide)
    (by decide) (by decide) (by decide)
    (by decide) (by decide) (by decide)
    (by decide) (by decide)
    (by decide) (by decide) (by decide)
    (by decide) (by decide)
    (by decide) (by decide) (by decide)
    (by decide)

/-! ## C4: the issue-reference scanner on decomposed messages -/

theorem headIsDigit_append (s t : Str) (h : s ≠ []) :
    headIsDigit (s ++ t) = headIsDigit s := by
  cases s with
  | nil => exact absurd rfl h
  | cons c s' => rfl

theorem issueScan_false_cons_elim (c : Char) (s' : Str)
    (h : issueScan false (c :: s') = []) :
    ¬(c = '#' ∧ headIsDigit s' = true) ∧ issueScan false s' = [] := by
  rw [issueScan, if_neg (by simp)] at h
  by_cases hc : c = '#' ∧ headIsDigit s' = true
  · rw [if_pos hc] at h
    exact absurd h (by simp)
  · rw [if_neg hc] at h
    exact ⟨hc, h⟩

theorem issueScan_false_append (seg t : Str) (h : issueScan false seg = [])
    (ht : ∀ c, t.head? = some c → c.isDigit = false) :
    issueScan false (seg ++ t) = issueScan false t := by
  induction seg with
  | nil => rfl
  | cons c s' ih =>
    obtain ⟨hc, hs'⟩ := issueScan_false_cons_elim c s' h
    rw [List.cons_append, issueScan, if_neg (by simp)]
    by_cases hse : s' = []
    · subst hse
      rw [if_neg]
      · rfl
      · intro hcon
        rcases hcon with ⟨hc1, hc2⟩
        cases t with
        | nil => simp [headIsDigit] at hc2
        | cons c' t' => simp [headIsDigit, ht c' rfl] at hc2
    · rw [headIsDigit_append s' t hse, if_neg hc]
      exact ih hs'

theorem takeWhile_digits (ds t : Str) (hd : ∀ c ∈ ds, c.isDigit = true)
    (ht : ∀ c, t.head? = some c → c.isDigit = false) :
    (ds ++ t).takeWhile Char.isDigit = ds := by
  induction ds with
  | nil =>
    cases t with
    | nil => rfl
    | cons c' t' =>
      rw [List.nil_append, List.takeWhile_cons, if_neg (by simp [ht c' rfl])]
  | cons d ds' ih =>
    rw [List.cons_append, List.takeWhile_cons,
      if_pos (by simp [hd d (List.mem_cons_self d ds')]),
      ih (fun c hc => hd c (List.mem_cons_of_mem d hc))]

theorem issueScan_true_digits (ds t : Str) (hd : ∀ c ∈ ds, c.isDigit = true)
    (ht : ∀ c, t.head? = some c → c.isDigit = false) :
    issueScan true (ds ++ t) = issueScan false t := by
  induction ds with
  | nil =>
    cases t with
    | nil => rfl
    | cons c' t' =>
      show issueScan true (c' :: t') = issueScan false (c' :: t')
      rw [issueScan, issueScan]
      simp [ht c' rfl]
  | cons d ds' ih =>
    rw [List.cons_append, issueScan,
      if_pos (by simp [hd d (List.mem_cons_self d ds')]),
      ih (fun c hc => hd c (List.mem_cons_of_mem d hc))]

theorem issueScan_false_ref (ds t : Str) (hne : ds ≠ [])
    (hd : ∀ c ∈ ds, c.isDigit = true)
    (ht : ∀ c, t.head? = some c → c.isDigit = false) :
    issueScan false (('#' :: ds) ++ t) = ('#' :: ds) :: issueScan false t := by
  obtain ⟨d, ds', hds⟩ := List.exists_cons_of_ne_nil hne
  rw [List.cons_append, issueScan, if_neg (by simp),
    if_pos ⟨rfl, by rw [hds]; simpa using hd d (hds ▸ List.mem_cons_self d ds')⟩,
    takeWhile_digits ds t hd ht, issueScan_true_digits ds t hd ht]

theorem assembleParts_head_not_digit (parts : List (Str × Str))
    (hrefs : ∀ pr ∈ parts, IsIssueRef pr.1) :
    ∀ c, (assembleParts parts).head? = some c → c.isDigit = false := by
  cases parts with
  | nil => intro c hc; simp [assembleParts] at hc
  | cons pr rest =>
    obtain ⟨ref, seg⟩ := pr
    obtain ⟨hh, _, _⟩ := hrefs (ref, seg) (List.mem_cons_self _ _)
    obtain ⟨rt, hrt⟩ : ∃ rt, ref = '#' :: rt := by
      cases ref with
      | nil => simp at hh
      | cons c cs => exact ⟨cs, by simpa using hh⟩
    intro c hc
    rw [assembleParts, hrt] at hc
    simp at hc
    subst hc
    decide

theorem seg_assembleParts_head_not_digit (seg : Str) (hseg : SegInert seg)
    (parts : List (Str × Str)) (hrefs : ∀ pr ∈ parts, IsIssueRef pr.1) :
    ∀ c, (seg ++ assembleParts parts).head? = some c → c.isDigit = false := by
  cases seg with
  | nil =>
    rw [List.nil_append]
    exact assembleParts_head_not_digit parts hrefs
  | cons c0 s0 =>
    intro c hc
    rw [List.cons_append] at hc
    simp at hc
    exact hc ▸ hseg.2 c0 rfl

theorem issueScan_assembleParts (parts : List (Str × Str))
    (hrefs : ∀ pr ∈ parts, IsIssueRef pr.1)
    (hsegs : ∀ pr ∈ parts, SegInert pr.2) :
    issueScan false (assembleParts parts) = parts.map Prod.fst := by
  induction parts with
  | nil => rfl
  | cons pr rest ih =>
    obtain ⟨ref, seg⟩ := pr
    obtain ⟨hh, hne, hdig⟩ := hrefs (ref, seg) (List.mem_cons_self _ _)
    have hseg := hsegs (ref, seg) (List.mem_cons_self _ _)
    obtain ⟨ds, hds⟩ : ∃ ds, ref = '#' :: ds := by
      cases ref with
      | nil => simp at hh
      | cons c cs => exact ⟨cs, by simpa using hh⟩
    have hds_ne : ds ≠ [] := by
      intro hcon
      exact hne (by rw [hds, hcon]; rfl)
    have hds_dig : ∀ c ∈ ds, c.isDigit = true := by
      intro c hc
      exact hdig c (by rw [hds]; exact hc)
    have hassoc : assembleParts ((ref, seg) :: rest) =
        ('#' :: ds) ++ (seg ++ assembleParts rest) := by
      rw [assembleParts, hds, List.append_assoc]
    have hrefs' : ∀ pr ∈ rest, IsIssueRef pr.1 :=
      fun pr hpr => hrefs pr (List.mem_cons_of_mem _ hpr)
    have hsegs' : ∀ pr ∈ rest, SegInert pr.2 :=
      fun pr hpr => hsegs pr (List.mem_cons_of_mem _ hpr)
    have hthead := seg_assembleParts_head_not_digit seg hseg rest hrefs'
    rw [hassoc, issueScan_false_ref ds _ hds_ne hds_dig hthead,
      issueScan_false_append seg _ hseg.1 (assembleParts_head_not_digit rest hrefs'),
      ih hrefs' hsegs', List.map_cons, hds]

/-- The scanner on a decomposed message finds exactly the references, in
order. -/
theorem findIssueRefs_assembleMsg (seg0 : Str) (parts : List (Str × Str))
    (h0 : findIssueRefs seg0 = [])
    (hrefs : ∀ pr ∈ parts, IsIssueRef pr.1)
    (hsegs : ∀ pr ∈ parts, SegInert pr.2) :
    findIssueRefs (assembleMsg seg0 parts) = parts.map Prod.fst := by
  rw [findIssueRefs, assembleMsg,
    issueScan_false_append seg0 _ h0 (assembleParts_head_not_digit parts hrefs),
    issueScan_assembleParts parts hrefs hsegs]

/-! ## C4: the spec-modelled independent replacement on decomposed
messages -/

theorem specScan_true_digits (repo : GitHubRepo) (ds t : Str)
    (hd : ∀ c ∈ ds, c.isDigit = true)
    (ht : ∀ c, t.head? = some c → c.isDigit = false) :
    specScan repo true (ds ++ t) = specScan repo false t := by
  induction ds with
  | nil =>
    cases t with
    | nil => rfl
    | cons c' t' =>
      show specScan repo true (c' :: t') = specScan repo false (c' :: t')
      rw [specScan, specScan]
      simp [ht c' rfl]
  | cons d ds' ih =>
    rw [List.cons_append, specScan,
      if_pos (by simp [hd d (List.mem_cons_self d ds')]),
      ih (fun c hc => hd c (List.mem_cons_of_mem d hc))]

theorem specScan_false_append (repo : GitHubRepo) (seg t : Str)
    (h : issueScan false seg = [])
    (ht : ∀ c, t.head? = some c → c.isDigit = false) :
    specScan repo false (seg ++ t) = seg ++ specScan repo false t := by
  induction seg with
  | nil => rfl
  | cons c s' ih =>
    obtain ⟨hc, hs'⟩ := issueScan_false_cons_elim c s' h
    rw [List.cons_append, specScan, if_neg (by simp)]
    by_cases hse : s' = []
    · subst hse
      rw [if_neg]
      · rfl
      · intro hcon
        rcases hcon with ⟨hc1, hc2⟩
        cases t with
        | nil => simp [headIsDigit] at hc2
        | cons c' t' => simp [headIsDigit, ht c' rfl] at hc2
    · rw [headIsDigit_append s' t hse, if_neg hc, ih hs']
      rfl

theorem specScan_false_ref (repo : GitHubRepo) (ds t : Str) (hne : ds ≠ [])
    (hd : ∀ c ∈ ds, c.isDigit = true)
    (ht : ∀ c, t.head? = some c → c.isDigit = false) :
    specScan repo false (('#' :: ds) ++ t) =
      issueLink repo ('#' :: ds) ++ specScan repo false t := by
  obtain ⟨d, ds', hds⟩ := List.exists_cons_of_ne_nil hne
  rw [List.cons_append, specScan, if_neg (by simp),
    if_pos ⟨rfl, by rw [hds]; simpa using hd d (hds ▸ List.mem_cons_self d ds')⟩,
    takeWhile_digits ds t hd ht, specScan_true_digits repo ds t hd ht]

theorem specScan_assembleParts (repo : GitHubRepo) (parts : List (Str × Str))
    (hrefs : ∀ pr ∈ parts, IsIssueRef pr.1)
    (hsegs : ∀ pr ∈ parts, SegInert pr.2) :
    specScan repo false (assembleParts parts) = assembleLinked repo parts := by
  induction parts with
  | nil => rfl
  | cons pr rest ih =>
    obtain ⟨ref, seg⟩ := pr
    obtain ⟨hh, hne, hdig⟩ := hrefs (ref, seg) (List.mem_cons_self _ _)
    have hseg := hsegs (ref, seg) (List.mem_cons_self _ _)
    obtain ⟨ds, hds⟩ : ∃ ds, ref = '#' :: ds := by
      cases ref with
      | nil => simp at hh
      | cons c cs => exact ⟨cs, by simpa using hh⟩
    have hds_ne : ds ≠ [] := by
      intro hcon
      exact hne (by rw [hds, hcon]; rfl)
    have hds_dig : ∀ c ∈ ds, c.isDigit = true := by
      intro c hc
      exact hdig c (by rw [hds]; exact hc)
    have hassoc : assembleParts ((ref, seg) :: rest) =
        ('#' :: ds) ++ (seg ++ assembleParts rest) := by
      rw [assembleParts, hds, List.append_assoc]
    have hrefs' : ∀ pr ∈ rest, IsIssueRef pr.1 :=
      fun pr hpr => hrefs pr (List.mem_cons_of_mem _ hpr)
    have hsegs' : ∀ pr ∈ rest, SegInert pr.2 :=
      fun pr hpr => hsegs pr (List.mem_cons_of_mem _ hpr)
    have hthead := seg_assembleParts_head_not_digit seg hseg rest hrefs'
    rw [hassoc, specScan_false_ref repo ds _ hds_ne hds_dig hthead,
      specScan_false_append repo seg _ hseg.1
        (assembleParts_head_not_digit rest hrefs'),
      ih hrefs' hsegs', assembleLinked, hds, List.append_assoc]

/-- The spec-modelled independent replacement on a decomposed message:
every reference becomes its link, everything else is untouched. -/
theorem specIndependentLinkIssues_assembleMsg (repo : GitHubRepo) (seg0 : Str)
    (parts : List (Str × Str)) (h0 : findIssueRefs seg0 = [])
    (hrefs : ∀ pr ∈ parts, IsIssueRef pr.1)
    (hsegs : ∀ pr ∈ parts, SegInert pr.2) :
    specIndependentLinkIssues repo (assembleMsg seg0 parts) =
      seg0 ++ assembleLinked repo parts := by
  rw [specIndependentLinkIssues, assembleMsg,
    specScan_false_append repo seg0 _ h0 (assembleParts_head_not_digit parts hrefs),
    specScan_assembleParts repo parts hrefs hsegs]

/-! ## C4: behaviour of the literal global substitution -/

theorem replaceAllAux_skip (pat repl : Str) :
    ∀ (ps C : Str), replaceAllAux pat repl ps.length (ps ++ C) =
      replaceAllAux pat repl 0 C := by
  intro ps
  induction ps with
  | nil => intro C; rfl
  | cons p ps' ih =>
    intro C
    show replaceAllAux pat repl (ps'.length + 1) (p :: (ps' ++ C)) = _
    exact ih C

theorem replaceAll_head_match (pat repl C : Str) (hne : pat ≠ []) :
    replaceAllAux pat repl 0 (pat ++ C) = repl ++ replaceAllAux pat repl 0 C := by
  obtain ⟨p, ps, hps⟩ := List.exists_cons_of_ne_nil hne
  subst hps
  rw [List.cons_append, replaceAllAux,
    if_pos ⟨List.isPrefixOf_iff_prefix.mpr (List.prefix_append (p :: ps) C),
      by simp⟩,
    show (p :: ps).length - 1 = ps.length by simp, replaceAllAux_skip]

theorem replaceAllAux_no_occ (pat repl : Str) (s : Str)
    (h : ∀ n, ¬ pat <+: s.drop n) :
    replaceAllAux pat repl 0 s = s := by
  induction s with
  | nil => rfl
  | cons c rest ih =>
    rw [replaceAllAux, if_neg (fun hcon =>
      h 0 (by simpa using List.isPrefixOf_iff_prefix.mp hcon.1)),
      ih (fun n => by have := h (n + 1); rwa [List.drop_succ_cons] at this)]

theorem replaceAllAux_prefix_skip (pat repl : Str) :
    ∀ (a x : Str), (∀ n, n < a.length → ¬ pat <+: (a ++ x).drop n) →
      replaceAllAux pat repl 0 (a ++ x) = a ++ replaceAllAux pat repl 0 x := by
  intro a
  induction a with
  | nil => intro x h; rfl
  | cons c a' ih =>
    intro x h
    rw [List.cons_append, replaceAllAux, if_neg (fun hcon => h 0 (by simp)
      (by simpa [List.cons_append] using List.isPrefixOf_iff_prefix.mp hcon.1)),
      ih x (fun n hn => by
        have := h (n + 1) (by simpa using Nat.succ_lt_succ hn)
        rwa [List.cons_append, List.drop_succ_cons] at this)]
    rfl

theorem replaceAll_prefix_skip (pat repl a x : Str)
    (h : ∀ n, n < a.length → ¬ pat <+: (a ++ x).drop n) :
    replaceAll pat repl (a ++ x) = a ++ replaceAll pat repl x :=
  replaceAllAux_prefix_skip pat repl a x h

theorem replaceAll_match_head (pat repl C : Str) (hne : pat ≠ []) :
    replaceAll pat repl (pat ++ C) = repl ++ replaceAll pat repl C :=
  replaceAll_head_match pat repl C hne

theorem replaceAll_no_occ (pat repl s : Str) (h : ∀ n, ¬ pat <+: s.drop n) :
    replaceAll pat repl s = s :=
  replaceAllAux_no_occ pat repl s h

/-! ## C4: occurrence exclusion -/

theorem prefix_digits_cut (ds_i : Str) :
    ∀ (ds_j t : Str), (∀ c ∈ ds_i, c.isDigit = true) →
      (∀ c, t.head? = some c → c.isDigit = false) →
      ds_i <+: ds_j ++ t → ds_i <+: ds_j := by
  induction ds_i with
  | nil => intro ds_j t _ _ _; exact List.nil_prefix
  | cons d di' ih =>
    intro ds_j t hdi ht h
    cases ds_j with
    | nil =>
      rw [List.nil_append] at h
      cases t with
      | nil => simp at h
      | cons c t' =>
        rw [List.cons_prefix_cons] at h
        have h1 := ht c rfl
        have h2 := hdi d (List.mem_cons_self d di')
        rw [h.1, h1] at h2
        exact absurd h2 (by simp)
    | cons b bj =>
      rw [List.cons_append, List.cons_prefix_cons] at h
      rw [List.cons_prefix_cons]
      exact ⟨h.1, ih bj t (fun c hc => hdi c (List.mem_cons_of_mem d hc)) ht h.2⟩

theorem hash_no_occ_clean (pat : Str) (hp : pat.head? = some '#') :
    ∀ (a x : Str), (∀ c ∈ a, c ≠ '#') →
      ∀ n, n < a.length → ¬ pat <+: (a ++ x).drop n := by
  intro a
  induction a with
  | nil => intro x _ n hn; simp at hn
  | cons c a' ih =>
    intro x h n hn
    obtain ⟨pt, hpt⟩ : ∃ pt, pat = '#' :: pt := by
      cases pat with
      | nil => simp at hp
      | cons q qs => exact ⟨qs, by simpa using hp⟩
    cases n with
    | zero =>
      rw [List.cons_append, List.drop_zero]
      intro hcon
      rw [hpt, List.cons_prefix_cons] at hcon
      exact h c (List.mem_cons_self c a') hcon.1.symm
    | succ n' =>
      rw [List.cons_append, List.drop_succ_cons]
      exact ih x (fun d hd => h d (List.mem_cons_of_mem _ hd)) n' (by simpa using hn)

theorem ref_no_occ_inert (d0 : Char) (pt : Str) (hd0 : d0.isDigit = true) :
    ∀ (a x : Str), issueScan false a = [] →
      (∀ c, x.head? = some c → c.isDigit = false) →
      ∀ n, n < a.length → ¬ ('#' :: d0 :: pt) <+: (a ++ x).drop n := by
  intro a
  induction a with
  | nil => intro x _ _ n hn; simp at hn
  | cons c a' ih =>
    intro x h hx n hn
    obtain ⟨hc, hs'⟩ := issueScan_false_cons_elim c a' h
    cases n with
    | zero =>
      rw [List.cons_append, List.drop_zero]
      intro hcon
      rw [List.cons_prefix_cons] at hcon
      obtain ⟨hceq, hrest⟩ := hcon
      cases ha' : a' with
      | nil =>
        subst ha'
        rw [List.nil_append] at hrest
        cases t1 : x with
        | nil =>
          subst t1
          simp at hrest
        | cons cx tx =>
          subst t1
          rw [List.cons_prefix_cons] at hrest
          have h1 := hx cx rfl
          rw [← hrest.1, hd0] at h1
          exact absurd h1 (by simp)
      | cons ca ta =>
        subst ha'
        rw [List.cons_append, List.cons_prefix_cons] at hrest
        exact hc ⟨hceq.symm, by simp [headIsDigit, ← hrest.1, hd0]⟩
    | succ n' =>
      rw [List.cons_append, List.drop_succ_cons]
      exact ih x hs' hx n' (by simpa using hn)

theorem no_occ_append (pat : Str) (a b x : Str)
    (ha : ∀ n, n < a.length → ¬ pat <+: (a ++ (b ++ x)).drop n)
    (hb : ∀ n, n < b.length → ¬ pat <+: (b ++ x).drop n) :
    ∀ n, n < (a ++ b).length → ¬ pat <+: ((a ++ b) ++ x).drop n := by
  intro n hn
  rw [List.append_assoc]
  by_cases hlt : n < a.length
  · exact ha n hlt
  · have h1 : n = a.length + (n - a.length) := by omega
    rw [h1, List.drop_append]
    exact hb (n - a.length) (by simp at hn; omega)

theorem no_occ_total (pat : Str) (hne : pat ≠ []) (s : Str)
    (h : ∀ n, n < s.length → ¬ pat <+: (s ++ []).drop n) :
    ∀ n, ¬ pat <+: s.drop n := by
  intro n
  by_cases hn : n < s.length
  · have := h n hn
    rwa [List.append_nil] at this
  · rw [List.drop_eq_nil_of_le (by omega)]
    intro hcon
    exact hne (List.prefix_nil.mp hcon)

theorem issueLink_decomp (repo : GitHubRepo) (ds : Str) :
    issueLink repo ('#' :: ds) =
      '[' :: '#' :: (ds ++ (str "](" ++ (repo.get_issue_url ds ++ str ")"))) := by
  simp [issueLink, List.append_assoc]

theorem url_tail_no_hash (repo : GitHubRepo) (ds : Str)
    (hO : '#' ∉ repo.owner) (hN : '#' ∉ repo.name)
    (hds : ∀ c ∈ ds, c.isDigit = true) :
    ∀ c ∈ ds ++ (str "](" ++ (repo.get_issue_url ds ++ str ")")), c ≠ '#' := by
  have hds' : '#' ∉ ds := fun hm => absurd (hds '#' hm) (by decide)
  have l1 : '#' ∉ str "](" := by decide
  have l2 : '#' ∉ str "https://github.com/" := by decide
  have l3 : '#' ∉ str "/" := by decide
  have l4 : '#' ∉ str "/issues/" := by decide
  have l5 : '#' ∉ str ")" := by decide
  intro c hc he
  subst he
  simp only [GitHubRepo.get_issue_url, GitHubRepo.url, List.mem_append] at hc
  tauto

theorem mid_head_not_digit (repo : GitHubRepo) (ds x : Str) :
    ∀ c, ((str "](" ++ (repo.get_issue_url ds ++ str ")")) ++ x).head? = some c →
      c.isDigit = false := by
  intro c hc
  have h0 : ((str "](" ++ (repo.get_issue_url ds ++ str ")")) ++ x).head? =
      some ']' := rfl
  rw [h0] at hc
  obtain rfl : c = ']' := (Option.some.inj hc).symm
  decide

theorem ref_no_occ_link (repo : GitHubRepo) (ds_i ds_j x : Str)
    (hO : '#' ∉ repo.owner) (hN : '#' ∉ repo.name)
    (hdi : ∀ c ∈ ds_i, c.isDigit = true)
    (hdj : ∀ c ∈ ds_j, c.isDigit = true)
    (hnp : ¬ ds_i <+: ds_j) :
    ∀ n, n < (issueLink repo ('#' :: ds_j)).length →
      ¬ ('#' :: ds_i) <+: (issueLink repo ('#' :: ds_j) ++ x).drop n := by
  intro n hn hcon
  rw [issueLink_decomp] at hn hcon
  rw [List.cons_append, List.cons_append] at hcon
  cases n with
  | zero =>
    rw [List.drop_zero, List.cons_prefix_cons] at hcon
    exact absurd hcon.1 (by decide)
  | succ n' =>
    rw [List.drop_succ_cons] at hcon
    cases n' with
    | zero =>
      rw [List.drop_zero, List.cons_prefix_cons] at hcon
      have h2 := hcon.2
      rw [List.append_assoc] at h2
      exact hnp (prefix_digits_cut ds_i ds_j _ hdi (mid_head_not_digit repo ds_j x) h2)
    | succ n'' =>
      rw [List.drop_succ_cons] at hcon
      have hlen : n'' <
          (ds_j ++ (str "](" ++ (repo.get_issue_url ds_j ++ str ")"))).length := by
        simp only [List.length_cons] at hn
        omega
      exact hash_no_occ_clean ('#' :: ds_i) rfl _ x
        (url_tail_no_hash repo ds_j hO hN hdj) n'' hlen hcon

theorem ref_no_occ_raw_ref (ds_i ds_m y : Str)
    (hdi : ∀ c ∈ ds_i, c.isDigit = true)
    (hdm : ∀ c ∈ ds_m, c.isDigit = true)
    (hy : ∀ c, y.head? = some c → c.isDigit = false)
    (hnp : ¬ ds_i <+: ds_m) :
    ∀ n, n < ('#' :: ds_m).length →
      ¬ ('#' :: ds_i) <+: (('#' :: ds_m) ++ y).drop n := by
  intro n hn hcon
  rw [List.cons_append] at hcon
  cases n with
  | zero =>
    rw [List.drop_zero, List.cons_prefix_cons] at hcon
    exact hnp (prefix_digits_cut ds_i ds_m y hdi hy hcon.2)
  | succ n' =>
    rw [List.drop_succ_cons] at hcon
    have hn' : n' < ds_m.length := by simpa using hn
    exact hash_no_occ_clean ('#' :: ds_i) rfl ds_m y
      (fun c hc he => by subst he; exact absurd (hdm '#' hc) (by decide)) n' hn' hcon

theorem assembleParts_append_head_not_digit (parts : List (Str × Str)) (x : Str)
    (hrefs : ∀ pr ∈ parts, IsIssueRef pr.1)
    (hx : ∀ c, x.head? = some c → c.isDigit = false) :
    ∀ c, (assembleParts parts ++ x).head? = some c → c.isDigit = false := by
  cases parts with
  | nil => exact hx
  | cons pr rest =>
    obtain ⟨ref, seg⟩ := pr
    obtain ⟨hh, _, _⟩ := hrefs _ (List.mem_cons_self _ _)
    obtain ⟨rt, hrt⟩ : ∃ rt, ref = '#' :: rt := by
      cases ref with
      | nil => simp at hh
      | cons c cs => exact ⟨cs, by simpa using hh⟩
    intro c hc
    rw [assembleParts, hrt] at hc
    have h0 : (((('#' :: rt) ++ seg) ++ assembleParts rest) ++ x).head? =
        some '#' := rfl
    rw [h0] at hc
    obtain rfl : c = '#' := (Option.some.inj hc).symm
    decide

theorem assembleLinked_append_head_not_digit (repo : GitHubRepo)
    (parts : List (Str × Str)) (x : Str)
    (hx : ∀ c, x.head? = some c → c.isDigit = false) :
    ∀ c, (assembleLinked repo parts ++ x).head? = some c → c.isDigit = false := by
  cases parts with
  | nil => exact hx
  | cons pr rest =>
    obtain ⟨ref, seg⟩ := pr
    intro c hc
    have h0 : (assembleLinked repo ((ref, seg) :: rest) ++ x).head? = some '[' := rfl
    rw [h0] at hc
    obtain rfl : c = '[' := (Option.some.inj hc).symm
    decide

theorem seg_head_not_digit_of_append (seg y : Str) (hseg : SegInert seg)
    (hy : ∀ c, y.head? = some c → c.isDigit = false) :
    ∀ c, (seg ++ y).head? = some c → c.isDigit = false := by
  cases seg with
  | nil => exact hy
  | cons c0 s0 =>
    intro c hc
    rw [List.cons_append] at hc
    obtain rfl : c = c0 := (Option.some.inj hc).symm
    exact hseg.2 c rfl

theorem assembleParts_append_eq (L1 L2 : List (Str × Str)) :
    assembleParts (L1 ++ L2) = assembleParts L1 ++ assembleParts L2 := by
  induction L1 with
  | nil => rfl
  | cons pr rest ih =>
    obtain ⟨ref, seg⟩ := pr
    rw [List.cons_append, assembleParts, assembleParts, ih]
    simp [List.append_assoc]

theorem assembleLinked_append_eq (repo : GitHubRepo) (L1 L2 : List (Str × Str)) :
    assembleLinked repo (L1 ++ L2) =
      assembleLinked repo L1 ++ assembleLinked repo L2 := by
  induction L1 with
  | nil => rfl
  | cons pr rest ih =>
    obtain ⟨ref, seg⟩ := pr
    rw [List.cons_append, assembleLinked, assembleLinked, ih]
    simp [List.append_assoc]

theorem ref_no_occ_raw (d0 : Char) (pt : Str)
    (hdi : ∀ c ∈ d0 :: pt, c.isDigit = true) :
    ∀ (parts : List (Str × Str)) (x : Str),
      (∀ pr ∈ parts, IsIssueRef pr.1) →
      (∀ pr ∈ parts, SegInert pr.2) →
      (∀ pr ∈ parts, ¬ ('#' :: d0 :: pt) <+: pr.1) →
      (∀ c, x.head? = some c → c.isDigit = false) →
      ∀ n, n < (assembleParts parts).length →
        ¬ ('#' :: d0 :: pt) <+: (assembleParts parts ++ x).drop n := by
  intro parts
  induction parts with
  | nil => intro x _ _ _ _ n hn; simp [assembleParts] at hn
  | cons pr rest ih =>
    obtain ⟨ref, seg⟩ := pr
    intro x hrefs hsegs hnp hx
    obtain ⟨hh, hrne, hrdig⟩ := hrefs _ (List.mem_cons_self _ _)
    obtain ⟨ds_m, hds⟩ : ∃ ds_m, ref = '#' :: ds_m := by
      cases ref with
      | nil => simp at hh
      | cons c cs => exact ⟨cs, by simpa using hh⟩
    have hseg := hsegs _ (List.mem_cons_self _ _)
    have hrefs' : ∀ pr ∈ rest, IsIssueRef pr.1 :=
      fun pr hpr => hrefs pr (List.mem_cons_of_mem _ hpr)
    have hsegs' : ∀ pr ∈ rest, SegInert pr.2 :=
      fun pr hpr => hsegs pr (List.mem_cons_of_mem _ hpr)
    have hnp' : ∀ pr ∈ rest, ¬ ('#' :: d0 :: pt) <+: pr.1 :=
      fun pr hpr => hnp pr (List.mem_cons_of_mem _ hpr)
    have hdm : ∀ c ∈ ds_m, c.isDigit = true := by
      intro c hc
      exact hrdig c (by rw [hds]; exact hc)
    have hnpm : ¬ (d0 :: pt) <+: ds_m := by
      intro hcon
      exact hnp _ (List.mem_cons_self _ _)
        (by rw [hds]; exact List.cons_prefix_cons.mpr ⟨rfl, hcon⟩)
    have hxAP : ∀ c, (assembleParts rest ++ x).head? = some c → c.isDigit = false :=
      assembleParts_append_head_not_digit rest x hrefs' hx
    have hxSeg : ∀ c, (seg ++ (assembleParts rest ++ x)).head? = some c →
        c.isDigit = false :=
      seg_head_not_digit_of_append seg _ hseg hxAP
    show ∀ n, n < (assembleParts ((ref, seg) :: rest)).length →
      ¬ ('#' :: d0 :: pt) <+: (assembleParts ((ref, seg) :: rest) ++ x).drop n
    rw [show assembleParts ((ref, seg) :: rest) =
      (ref ++ seg) ++ assembleParts rest from rfl]
    apply no_occ_append
    · apply no_occ_append
      · rw [hds]
        intro n hn
        exact ref_no_occ_raw_ref (d0 :: pt) ds_m _ hdi hdm hxSeg hnpm n hn
      · intro n hn
        exact ref_no_occ_inert d0 pt (hdi d0 (List.mem_cons_self d0 pt)) seg _
          hseg.1 hxAP n hn
    · exact ih x hrefs' hsegs' hnp' hx

theorem ref_no_occ_linked (repo : GitHubRepo) (d0 : Char) (pt : Str)
    (hO : '#' ∉ repo.owner) (hN : '#' ∉ repo.name)
    (hdi : ∀ c ∈ d0 :: pt, c.isDigit = true) :
    ∀ (parts : List (Str × Str)) (x : Str),
      (∀ pr ∈ parts, IsIssueRef pr.1) →
      (∀ pr ∈ parts, SegInert pr.2) →
      (∀ pr ∈ parts, ¬ ('#' :: d0 :: pt) <+: pr.1) →
      (∀ c, x.head? = some c → c.isDigit = false) →
      ∀ n, n < (assembleLinked repo parts).length →
        ¬ ('#' :: d0 :: pt) <+: (assembleLinked repo parts ++ x).drop n := by
  intro parts
  induction parts with
  | nil => intro x _ _ _ _ n hn; simp [assembleLinked] at hn
  | cons pr rest ih =>
    obtain ⟨ref, seg⟩ := pr
    intro x hrefs hsegs hnp hx
    obtain ⟨hh, hrne, hrdig⟩ := hrefs _ (List.mem_cons_self _ _)
    obtain ⟨ds_m, hds⟩ : ∃ ds_m, ref = '#' :: ds_m := by
      cases ref with
      | nil => simp at hh
      | cons c cs => exact ⟨cs, by simpa using hh⟩
    have hseg := hsegs _ (List.mem_cons_self _ _)
    have hrefs' : ∀ pr ∈ rest, IsIssueRef pr.1 :=
      fun pr hpr => hrefs pr (List.mem_cons_of_mem _ hpr)
    have hsegs' : ∀ pr ∈ rest, SegInert pr.2 :=
      fun pr hpr => hsegs pr (List.mem_cons_of_mem _ hpr)
    have hnp' : ∀ pr ∈ rest, ¬ ('#' :: d0 :: pt) <+: pr.1 :=
      fun pr hpr => hnp pr (List.mem_cons_of_mem _ hpr)
    have hdm : ∀ c ∈ ds_m, c.isDigit = true := by
      intro c hc
      exact hrdig c (by rw [hds]; exact hc)
    have hnpm : ¬ (d0 :: pt) <+: ds_m := by
      intro hcon
      exact hnp _ (List.mem_cons_self _ _)
        (by rw [hds]; exact List.cons_prefix_cons.mpr ⟨rfl, hcon⟩)
    have hxAL : ∀ c, (assembleLinked repo rest ++ x).head? = some c →
        c.isDigit = false :=
      assembleLinked_append_head_not_digit repo rest x hx
    show ∀ n, n < (assembleLinked repo ((ref, seg) :: rest)).length →
      ¬ ('#' :: d0 :: pt) <+: (assembleLinked repo ((ref, seg) :: rest) ++ x).drop n
    rw [show assembleLinked repo ((ref, seg) :: rest) =
      (issueLink repo ref ++ seg) ++ assembleLinked repo rest from rfl]
    apply no_occ_append
    · apply no_occ_append
      · rw [hds]
        intro n hn
        exact ref_no_occ_link repo (d0 :: pt) ds_m _ hO hN hdi hdm hnpm n hn
      · intro n hn
        exact ref_no_occ_inert d0 pt (hdi d0 (List.mem_cons_self d0 pt)) seg _
          hseg.1 hxAL n hn
    · exact ih x hrefs' hsegs' hnp' hx

theorem foldl_link_invariant (repo : GitHubRepo)
    (hO : '#' ∉ repo.owner) (hN : '#' ∉ repo.name) :
    ∀ (R L : List (Str × Str)) (seg0 : Str),
      findIssueRefs seg0 = [] →
      (∀ pr ∈ L ++ R, IsIssueRef pr.1) →
      (∀ pr ∈ L ++ R, SegInert pr.2) →
      ((L ++ R).map Prod.fst).Pairwise (fun a b => ¬ a <+: b ∧ ¬ b <+: a) →
      (R.map Prod.fst).foldl
        (fun m issue_id => replaceAll issue_id (issueLink repo issue_id) m)
        (seg0 ++ (assembleLinked repo L ++ assembleParts R)) =
      seg0 ++ assembleLinked repo (L ++ R) := by
  intro R
  induction R with
  | nil =>
    intro L seg0 _ _ _ _
    rw [List.map_nil, List.foldl_nil, List.append_nil]
    rw [show assembleParts [] = [] from rfl, List.append_nil]
  | cons pr R' ih =>
    obtain ⟨ref, seg⟩ := pr
    intro L seg0 h0 hrefs hsegs hpw
    have hrefme := hrefs (ref, seg) (by simp)
    obtain ⟨hh, hrne, hrdig⟩ := hrefme
    obtain ⟨ds, hds0⟩ : ∃ ds, ref = '#' :: ds := by
      cases ref with
      | nil => simp at hh
      | cons c cs => exact ⟨cs, by simpa using hh⟩
    obtain ⟨d0, pt, hds⟩ : ∃ d0 pt, ref = '#' :: d0 :: pt := by
      cases hcs : ds with
      | nil => rw [hds0, hcs] at hrne; simp at hrne
      | cons d0 pt => exact ⟨d0, pt, by rw [hds0, hcs]⟩
    have hdi : ∀ c ∈ d0 :: pt, c.isDigit = true := by
      intro c hc
      exact hrdig c (by rw [hds]; exact hc)
    have hsegme := hsegs (ref, seg) (by simp)
    have hrefsL : ∀ pr ∈ L, IsIssueRef pr.1 :=
      fun pr hpr => hrefs pr (List.mem_append_left _ hpr)
    have hsegsL : ∀ pr ∈ L, SegInert pr.2 :=
      fun pr hpr => hsegs pr (List.mem_append_left _ hpr)
    have hrefsR : ∀ pr ∈ R', IsIssueRef pr.1 :=
      fun pr hpr => hrefs pr (by simp [hpr])
    have hsegsR : ∀ pr ∈ R', SegInert pr.2 :=
      fun pr hpr => hsegs pr (by simp [hpr])
    -- pairwise facts
    have hpw2 := hpw
    rw [List.map_append] at hpw2
    obtain ⟨pwL, pwR, cross⟩ := List.pairwise_append.mp hpw2
    have hnpL : ∀ pr ∈ L, ¬ ref <+: pr.1 := by
      intro pr hpr
      exact (cross pr.1 (List.mem_map_of_mem Prod.fst hpr)
        ref (by simp)).2
    have hnpR : ∀ pr ∈ R', ¬ ref <+: pr.1 := by
      intro pr hpr
      rw [List.map_cons, List.pairwise_cons] at pwR
      exact (pwR.1 pr.1 (List.mem_map_of_mem Prod.fst hpr)).1
    -- head facts
    have hxref : ∀ c, (ref ++ (seg ++ assembleParts R')).head? = some c →
        c.isDigit = false := by
      intro c hc
      rw [hds, List.cons_append] at hc
      obtain rfl : c = '#' := (Option.some.inj hc).symm
      decide
    -- the fold step
    rw [List.map_cons, List.foldl_cons]
    have hstep : replaceAll ref (issueLink repo ref)
        (seg0 ++ (assembleLinked repo L ++ assembleParts ((ref, seg) :: R'))) =
        seg0 ++ (assembleLinked repo (L ++ [(ref, seg)]) ++ assembleParts R') := by
      have hform : seg0 ++ (assembleLinked repo L ++ assembleParts ((ref, seg) :: R')) =
          (seg0 ++ assembleLinked repo L) ++ (ref ++ (seg ++ assembleParts R')) := by
        rw [show assembleParts ((ref, seg) :: R') =
          (ref ++ seg) ++ assembleParts R' from rfl]
        simp [List.append_assoc]
      rw [hform]
      have hskip : replaceAll ref (issueLink repo ref)
          ((seg0 ++ assembleLinked repo L) ++ (ref ++ (seg ++ assembleParts R'))) =
          (seg0 ++ assembleLinked repo L) ++ replaceAll ref (issueLink repo ref)
            (ref ++ (seg ++ assembleParts R')) := by
        apply replaceAllAux_prefix_skip
        apply no_occ_append
        · rw [hds]
          intro n hn
          exact ref_no_occ_inert d0 pt (hdi d0 (List.mem_cons_self d0 pt)) seg0 _ h0
            (assembleLinked_append_head_not_digit repo L _ (hds ▸ hxref)) n hn
        · rw [hds]
          intro n hn
          exact ref_no_occ_linked repo d0 pt hO hN hdi L _ hrefsL hsegsL
            (fun pr hpr => hds ▸ hnpL pr hpr) (hds ▸ hxref) n hn
      rw [hskip, replaceAll_match_head ref _ _ (by rw [hds]; simp)]
      have htail : replaceAll ref (issueLink repo ref) (seg ++ assembleParts R') =
          seg ++ assembleParts R' := by
        apply replaceAll_no_occ
        apply no_occ_total _ (by rw [hds]; simp)
        apply no_occ_append
        · rw [hds]
          intro n hn
          exact ref_no_occ_inert d0 pt (hdi d0 (List.mem_cons_self d0 pt)) seg _
            hsegme.1 (assembleParts_append_head_not_digit R' [] hrefsR
              (fun c hc => by simp at hc)) n hn
        · rw [hds]
          intro n hn
          exact ref_no_occ_raw d0 pt hdi R' [] hrefsR hsegsR
            (fun pr hpr => hds ▸ hnpR pr hpr) (fun c hc => by simp at hc) n hn
      rw [htail, assembleLinked_append_eq]
      rw [show assembleLinked repo [(ref, seg)] =
        (issueLink repo ref ++ seg) ++ [] from rfl]
      simp [List.append_assoc]
    rw [hstep]
    have hresh : (L ++ [(ref, seg)]) ++ R' = L ++ ((ref, seg) :: R') := by simp
    have hfin := ih (L ++ [(ref, seg)]) seg0 h0 (by rw [hresh]; exact hrefs)
      (by rw [hresh]; exact hsegs) (by rw [hresh]; exact hpw)
    rw [hfin, hresh]

/-- C4 (amended): for a message decomposed into a reference-free leading
segment and `k` (issue-reference, following-segment) pairs whose
references are pairwise non-prefix (in particular pairwise distinct), the
chained global substitutions replace each of the `k` occurrences exactly
once by `[#<digits>](<base>/issues/<digits>)`, left to right, and agree
with the spec's independent per-occurrence replacement.  (Without the
pairwise condition the claim fails: see the duplicate-reference
counterexample.) -/
theorem c4_amended_issue_links (repo : GitHubRepo) (seg0 : Str)
    (parts : List (Str × Str))
    (hO : '#' ∉ repo.owner) (hN : '#' ∉ repo.name)
    (h0 : findIssueRefs seg0 = [])
    (hrefs : ∀ pr ∈ parts, IsIssueRef pr.1)
    (hsegs : ∀ pr ∈ parts, SegInert pr.2)
    (hpw : (parts.map Prod.fst).Pairwise (fun a b => ¬ a <+: b ∧ ¬ b <+: a)) :
    linkIssues repo (assembleMsg seg0 parts) = seg0 ++ assembleLinked repo parts ∧
    specIndependentLinkIssues repo (assembleMsg seg0 parts) =
      seg0 ++ assembleLinked repo parts := by
  constructor
  · rw [linkIssues, findIssueRefs_assembleMsg seg0 parts h0 hrefs hsegs]
    exact foldl_link_invariant repo hO hN parts [] seg0 h0 hrefs hsegs hpw
  · exact specIndependentLinkIssues_assembleMsg repo seg0 parts h0 hrefs hsegs

/-- C4 witness: the message `fix: resolve #42 and #7.` with two distinct,
non-nested references. -/
theorem c4_witness :
    linkIssues repoAcme
        (assembleMsg (str "fix: resolve ") [(str "#42", str " and "), (str "#7", str ".")]) =
      str "fix: resolve " ++
        assembleLinked repoAcme [(str "#42", str " and "), (str "#7", str ".")] ∧
    specIndependentLinkIssues repoAcme
        (assembleMsg (str "fix: resolve ") [(str "#42", str " and "), (str "#7", str ".")]) =
      str "fix: resolve " ++
        assembleLinked repoAcme [(str "#42", str " and "), (str "#7", str ".")] :=
  c4_amended_issue_links repoAcme (str "fix: resolve ")
    [(str "#42", str " and "), (str "#7", str ".")]
    (by decide) (by decide) (by decide) (by decide) (by decide) (by decide)

end CzCustomCommits
